import Mathlib

/-!
Verification of the computational core of the pyphi/cyphi repository against its
natural-language specification.  The definitions below are a shallow embedding of
the repertoire algebra (src/pyphi/subsystem.py, src/pyphi/node.py), the cyphi
concept/constellation pipeline and constellation distances (src/cyphi/compute.py,
src/cyphi/utils.py), and the ordering of system irreducibility analyses
(src/pyphi/models/subsystem.py).  Repertoires are numpy arrays whose axes have
length 2 (purview axes) or 1 (broadcast singleton axes); they are modelled by
`NArr`.  Pieces of the repository that are not under src/ (the `distribution`,
`tpm`, `options`, `direction`, `partition` and `metrics` modules, the cyphi
`Subsystem` class, and the third-party scipy/pyemd library calls) are modelled
from the specification and marked as such in their doc comments.
-/

/-- Modelled from the spec: `options.EPSILON` (§6, default ~1e-6), the numeric
tolerance for zero-φ tests; the cyphi `options` module is not under src/. -/
def EPSILON : ℚ := 1 / 1000000

/-- Modelled from the spec: `pyphi.direction.Direction` (§9, a tagged variant with
members CAUSE and EFFECT); `direction.py` is not under src/. -/
inductive Direction where
  | cause
  | effect
deriving DecidableEq

/-- An n-dimensional numpy array in the repertoire layout of §3/§4.1: axis `i` has
length 2 when `shape i = true` and length 1 (broadcast singleton) otherwise.  The
`val` function stores the entries; indices on singleton axes are pinned to `false`
by `NArr.get`, which realizes numpy broadcast indexing. -/
structure NArr (n : ℕ) where
  shape : Fin n → Bool
  val : (Fin n → Bool) → ℚ

namespace NArr

variable {n : ℕ}

/-- Entry access with numpy broadcast semantics: index bits on singleton axes are
ignored. -/
def get (a : NArr n) (f : Fin n → Bool) : ℚ :=
  a.val fun i => f i && a.shape i

/-- Pointwise broadcast product (`np.multiply` / `*` on repertoires, §4.1). -/
def mul (a b : NArr n) : NArr n :=
  ⟨fun i => a.shape i || b.shape i, fun f => a.get f * b.get f⟩

/-- `np.ones(repertoire_shape(purview, n))` (subsystem.py:351, 407); the
`repertoire_shape` helper of `pyphi.distribution` is not under src/ and is modelled
from §3: length 2 exactly on purview axes. -/
def ones (P : Finset (Fin n)) : NArr n :=
  ⟨fun i => decide (i ∈ P), fun _ => 1⟩

/-- `np.array([1.0])`, the multiplicative identity returned for empty purviews
(subsystem.py:340, 448): every axis is a singleton and the single entry is 1. -/
def scalarOne (n : ℕ) : NArr n :=
  ⟨fun _ => false, fun _ => 1⟩

/-- The set of valid multi-indices of an array: bits on singleton axes are
pinned to `false`.  Each array entry corresponds to exactly one valid index. -/
def support (a : NArr n) : Finset (Fin n → Bool) :=
  Finset.univ.filter fun f => ∀ i, a.shape i = false → f i = false

/-- Sum of all entries of the array (`np.sum(a)`, i.e. the sum over the purview
axes in the sense of §3). -/
def entrySum (a : NArr n) : ℚ := ∑ f ∈ a.support, a.get f

/-- `np.all(a == 0)` (subsystem.py:675). -/
def isZero (a : NArr n) : Prop := ∀ f, a.get f = 0

instance (a : NArr n) : Decidable a.isZero := by
  unfold isZero
  infer_instance

/-- `functools.reduce(np.multiply, l)` over a list of repertoires
(subsystem.py:354, 410, 507); on the empty list we return the scalar identity
(the source never reduces an empty list). -/
def listProd : List (NArr n) → NArr n
  | [] => scalarOne n
  | x :: xs => xs.foldl mul x

/-- Modelled from the spec: `pyphi.distribution.normalize` (distribution.py is
not under src/).  Divides by the total; an identically-zero input is returned
unchanged, which is the behaviour required by the all-zero unreachable-state
check in `find_mip` (src/pyphi/subsystem.py:674-676 expects an all-zero cause
repertoire to be representable). -/
def normalize (a : NArr n) : NArr n :=
  if a.entrySum = 0 then a else ⟨a.shape, fun f => a.get f / a.entrySum⟩

/-- Modelled from the spec (§3): `pyphi.distribution.purview`, the purview
inferred from a repertoire's shape — the axes of length 2.  `distribution.py` is
not under src/. -/
def purviewOf (a : NArr n) : Finset (Fin n) :=
  Finset.univ.filter fun i => a.shape i = true

/-- Modelled from the spec (§4.1): "Conditioning a TPM on a set of nodes in a
given state selects along those axes" (keeping the axes as singletons);
`pyphi.tpm.condition_tpm` is not under src/. -/
def conditionTpm (fixed : Finset (Fin n)) (state : Fin n → Bool) (a : NArr n) : NArr n :=
  ⟨fun i => a.shape i && !(decide (i ∈ fixed)),
   fun f => a.get fun i => if i ∈ fixed then state i else f i⟩

/-- Modelled from the spec (§4.1): "Marginalization over a node is axis-sum
followed by normalization by that axis's length (2)", with `keepdims` semantics
(`pyphi.tpm.marginalize_out` is not under src/; `cyphi.utils.marginalize_out`,
which is under src/, has the same per-axis semantics).  Marginalizing a set of
axes is expressed as the mean over all overrides of those axes; axes already of
length 1 are unchanged by this, exactly as `np.sum(..., keepdims=True)/1`. -/
def marginalizeOut (s : Finset (Fin n)) (a : NArr n) : NArr n :=
  ⟨fun i => a.shape i && !(decide (i ∈ s)),
   fun f => (∑ b : Fin n → Bool, a.get fun i => if i ∈ s then b i else f i) / 2 ^ n⟩

/-- The max-entropy constructor of §4.1: uniform over the purview axes,
singleton 1 elsewhere (`pyphi.distribution.max_entropy_distribution` is not
under src/; `cyphi.utils.max_entropy_distribution`, under src/, is the same). -/
def max_entropy_distribution (P : Finset (Fin n)) : NArr n :=
  ⟨fun i => decide (i ∈ P), fun _ => 1 / 2 ^ P.card⟩

end NArr

/-- The data a `Subsystem` is constructed from (subsystem.py:61-129): the
network TPM in state-by-node multidimensional form, the (cut-applied)
connectivity matrix, the network state, and the subsystem's node indices. -/
structure Subsys (n : ℕ) where
  tpm : (Fin n → Bool) → Fin n → ℚ
  cm : Fin n → Fin n → Bool
  state : Fin n → Bool
  nodeIndices : Finset (Fin n)

namespace Subsys

variable {n : ℕ}

/-- `get_inputs_from_cm(j, cm)` (node.py:56): the nodes with an edge into `j`. -/
def inputsOf (sub : Subsys n) (j : Fin n) : Finset (Fin n) :=
  Finset.univ.filter fun i => sub.cm i j = true

/-- `external_indices` (subsystem.py:90): all network nodes outside the
subsystem. -/
def externalIndices (sub : Subsys n) : Finset (Fin n) :=
  Finset.univ \ sub.nodeIndices

/-- Column `j` of the subsystem TPM: the network TPM conditioned on the state of
the external nodes (subsystem.py:97), projected to the probability that node `j`
is ON next (node.py:66). -/
def subsystemTpmCol (sub : Subsys n) (j : Fin n) : NArr n :=
  NArr.conditionTpm sub.externalIndices sub.state ⟨fun _ => true, fun f => sub.tpm f j⟩

/-- `tpm_on` of node `j` (node.py:66-75): the subsystem TPM column for `j`
marginalized over subsystem nodes that are not inputs of `j` (the non-singleton
axes of the subsystem TPM are exactly the subsystem nodes). -/
def nodeTpmOn (sub : Subsys n) (j : Fin n) : NArr n :=
  NArr.marginalizeOut (sub.nodeIndices \ sub.inputsOf j) (sub.subsystemTpmCol j)

/-- `node.tpm` (node.py:79-87): the last axis indexes the node's next state;
`true` selects `tpm_on` and `false` selects `tpm_off = 1 - tpm_on`. -/
def nodeTpm (sub : Subsys n) (j : Fin n) (b : Bool) : NArr n :=
  if b then sub.nodeTpmOn j
  else ⟨(sub.nodeTpmOn j).shape, fun f => 1 - (sub.nodeTpmOn j).get f⟩

/-- `Subsystem._single_node_cause_repertoire` (subsystem.py:309-317): take the
mechanism node's TPM at its current state and marginalize out its inputs outside
the purview. -/
def single_node_cause_repertoire (sub : Subsys n) (m : Fin n) (P : Finset (Fin n)) : NArr n :=
  NArr.marginalizeOut (sub.inputsOf m \ P) (sub.nodeTpm m (sub.state m))

/-- `Subsystem._cause_repertoire` (subsystem.py:321-361): scalar 1 for the empty
purview; the max-entropy distribution for the empty mechanism; otherwise the
normalized broadcast product of the single-node cause repertoires. -/
def cause_repertoire (sub : Subsys n) (mechanism P : Finset (Fin n)) : NArr n :=
  if P = ∅ then NArr.scalarOne n
  else if mechanism = ∅ then NArr.max_entropy_distribution P
  else NArr.normalize ((NArr.ones P).mul
    (NArr.listProd ((mechanism.sort (· ≤ ·)).map
      fun m => sub.single_node_cause_repertoire m P)))

/-- `Subsystem._single_node_effect_repertoire` (subsystem.py:370-382): condition
the purview node's TPM on the mechanism inputs' state, marginalize out the
non-mechanism inputs, and reshape so only the purview node's axis has length 2
(the next-state axis of the node TPM is carried through the per-axis operations
unchanged, so selecting it first is exact). -/
def single_node_effect_repertoire (sub : Subsys n) (mechanism : Finset (Fin n))
    (p : Fin n) : NArr n :=
  ⟨fun i => decide (i = p),
   fun f =>
     (NArr.marginalizeOut (sub.inputsOf p \ mechanism)
       (NArr.conditionTpm (sub.inputsOf p ∩ mechanism) sub.state
         (sub.nodeTpm p (f p)))).get fun _ => false⟩

/-- `Subsystem._effect_repertoire_virtualized` (subsystem.py:384-413): the
broadcast product of the single-node effect repertoires over the purview. -/
def effect_repertoire_virtualized (sub : Subsys n) (mechanism P : Finset (Fin n)) : NArr n :=
  (NArr.ones P).mul
    (NArr.listProd ((P.sort (· ≤ ·)).map
      fun p => sub.single_node_effect_repertoire mechanism p))

/-- `Subsystem.effect_repertoire` (subsystem.py:444-457) with the default empty
`nonvirtualized_units` (the nonvirtualized branch is not taken by default). -/
def effect_repertoire (sub : Subsys n) (mechanism P : Finset (Fin n)) : NArr n :=
  if P = ∅ then NArr.scalarOne n
  else sub.effect_repertoire_virtualized mechanism P

/-- `Subsystem.repertoire` (subsystem.py:459-481): dispatch on direction. -/
def repertoire (sub : Subsys n) (d : Direction) (mechanism P : Finset (Fin n)) : NArr n :=
  match d with
  | Direction.cause => sub.cause_repertoire mechanism P
  | Direction.effect => sub.effect_repertoire mechanism P

/-- `Subsystem.unconstrained_repertoire` (subsystem.py:483-485). -/
def unconstrained_repertoire (sub : Subsys n) (d : Direction) (P : Finset (Fin n)) : NArr n :=
  sub.repertoire d ∅ P

/-- `Subsystem.expand_repertoire` (subsystem.py:509-547); `ValueError` is
modelled as `Except.error`.  The `None` guard comes first, exactly as in the
source. -/
def expand_repertoire (sub : Subsys n) (d : Direction) (rep : Option (NArr n))
    (newPurview : Option (Finset (Fin n))) : Except Unit (Option (NArr n)) :=
  match rep with
  | none => Except.ok none
  | some r =>
    let purview := r.purviewOf
    let npv := newPurview.getD sub.nodeIndices
    if ¬ purview ⊆ npv then Except.error ()
    else
      Except.ok (some (NArr.normalize
        (r.mul (sub.unconstrained_repertoire d (npv \ purview)))))

end Subsys

/-- One part of an IIT partition: a sub-mechanism over a sub-purview (the `Part`
objects iterated by `partitioned_repertoire`). -/
structure PartPair (n : ℕ) where
  mechanism : Finset (Fin n)
  purview : Finset (Fin n)

namespace Subsys

variable {n : ℕ}

/-- `Subsystem.partitioned_repertoire` (subsystem.py:501-507): the product of the
part repertoires. -/
def partitioned_repertoire (sub : Subsys n) (d : Direction)
    (partition : List (PartPair n)) : NArr n :=
  NArr.listProd (partition.map fun part => sub.repertoire d part.mechanism part.purview)

/-- The φ computed by `Subsystem.evaluate_partition` (subsystem.py:588-635): the
distance between the unpartitioned and the partitioned repertoire.  The distance
function itself lives in `pyphi.metrics.distribution` which is not under src/,
so it is an explicit parameter `dist`. -/
def evaluate_partition_phi (dist : NArr n → NArr n → ℚ) (sub : Subsys n) (d : Direction)
    (mechanism P : Finset (Fin n)) (partition : List (PartPair n)) : ℚ :=
  dist (sub.repertoire d mechanism P) (sub.partitioned_repertoire d partition)

/-- The partition loop of `Subsystem.find_mip` (subsystem.py:680-700): start from
φ = ∞ (`_null_ria(..., phi=float("inf"))`), return immediately on an exactly-zero
φ, otherwise keep the strictly smaller φ. -/
def find_mip_loop (e : List (PartPair n) → ℚ) :
    List (List (PartPair n)) → WithTop ℚ → WithTop ℚ
  | [], acc => acc
  | p :: ps, acc =>
    if e p = 0 then (0 : WithTop ℚ)
    else if (e p : WithTop ℚ) < acc then find_mip_loop e ps (e p : WithTop ℚ)
    else find_mip_loop e ps acc

/-- The φ of the analysis returned by `Subsystem.find_mip` (subsystem.py:637-700):
0 for an empty purview (`_null_ria` default φ, §4.4); 0 when the direction is
CAUSE and the unpartitioned repertoire is identically zero (unreachable state,
subsystem.py:674-676); otherwise the minimizing loop over the enumerated
partitions.  The partition enumeration (`pyphi.partition.mip_partitions`, not
under src/) is an explicit parameter, so the theorems hold for any enumeration. -/
def find_mip_phi (dist : NArr n → NArr n → ℚ) (sub : Subsys n) (d : Direction)
    (mechanism P : Finset (Fin n)) (partitions : List (List (PartPair n))) : WithTop ℚ :=
  if P = ∅ then (0 : WithTop ℚ)
  else if d = Direction.cause ∧ (sub.repertoire d mechanism P).isZero then (0 : WithTop ℚ)
  else find_mip_loop (sub.evaluate_partition_phi dist d mechanism P) partitions ⊤

end Subsys

/-- A cyphi concept as far as the CES-filter claims are concerned: its mechanism
and its φ = min(cause φ, effect φ).  The cyphi `models` module is not under
src/; only these fields are relevant. -/
structure CyphiConcept (μ : Type) where
  mechanism : List μ
  phi : ℚ
deriving DecidableEq

/-- `cyphi.compute._concept` together with the pre-checks of
`cyphi.compute.concept` (compute.py:26-105): empty mechanisms and mechanisms
failing the connectivity pre-check yield no concept; a φ below EPSILON yields no
concept; otherwise the concept carries φ = min(cause φ, effect φ).  Modelled
from the spec where code is missing: `Subsystem.core_cause`/`core_effect` (the φ
values `ccp`/`cep`) and the `_all_connect_to_any`/`_any_connect_to_all` test
(`connOk`) live in cyphi/subsystem.py, which is not under src/, so they are
abstract parameters; the persistent cache is treated as transparent. -/
def cyphi_concept {μ : Type} [DecidableEq μ] (ccp cep : List μ → ℚ) (connOk : List μ → Bool)
    (mech : List μ) : Option (CyphiConcept μ) :=
  if mech = [] then none
  else if connOk mech = false then none
  else if min (ccp mech) (cep mech) < EPSILON then none
  else some ⟨mech, min (ccp mech) (cep mech)⟩

/-- `cyphi.utils.powerset` (utils.py:86-102); the enumeration order differs from
itertools, but the claims only concern the collection of subsets. -/
def powersetList {μ : Type} (l : List μ) : List (List μ) := l.sublists

/-- `cyphi.compute.constellation` (compute.py:108-126): one concept per mechanism
in the powerset of the subsystem's nodes, with non-concepts filtered out. -/
def cyphi_constellation {μ : Type} [DecidableEq μ] (nodes : List μ) (ccp cep : List μ → ℚ)
    (connOk : List μ → Bool) : List (CyphiConcept μ) :=
  (powersetList nodes).filterMap (cyphi_concept ccp cep connOk)

/-- Bounded-length boolean reachability in a directed graph on `Fin n`. -/
def reachN {n : ℕ} (adj : Fin n → Fin n → Bool) : ℕ → Fin n → Fin n → Bool
  | 0, i, j => decide (i = j)
  | k + 1, i, j =>
    decide (i = j) || decide (∃ m, adj i m = true ∧ reachN adj k m j = true)

/-- Reachability (paths of length at most `n` suffice on `n` vertices). -/
def reachB {n : ℕ} (adj : Fin n → Fin n → Bool) (i j : Fin n) : Bool :=
  reachN adj n i j

/-- Strong connectivity: every vertex reaches every vertex. -/
def strongly_connected_check {n : ℕ} (adj : Fin n → Fin n → Bool) : Bool :=
  decide (∀ i j, reachB adj i j = true)

/-- The underlying undirected graph (edges symmetrized). -/
def symAdj {n : ℕ} (adj : Fin n → Fin n → Bool) : Fin n → Fin n → Bool :=
  fun i j => adj i j || adj j i

/-- The number of WEAKLY connected components, counted by minimal
representatives: what `scipy.sparse.csgraph.connected_components` returns under
its documented defaults `directed=True, connection="weak"`. -/
def connected_component_count_weak {n : ℕ} (adj : Fin n → Fin n → Bool) : ℕ :=
  (Finset.univ.filter fun i : Fin n =>
    ∀ j, reachB (symAdj adj) i j = true → i ≤ j).card

/-- The reducibility guard of `cyphi.compute._big_mip` (compute.py:304-311): the
code calls scipy `connected_components(csr_matrix(cm))` with the library's
documented defaults (`directed=True, connection="weak"`), so the early
null-BigMip return fires iff the number of WEAKLY connected components of the
subsystem-induced connectivity matrix exceeds 1. -/
def big_mip_connectivity_null_guard {n : ℕ} (adj : Fin n → Fin n → Bool) : Bool :=
  decide (1 < connected_component_count_weak adj)

/-- A 2-node feedforward connectivity matrix: a single edge from node 0 to
node 1 and no edge back. -/
def cmFeedforward : Fin 2 → Fin 2 → Bool :=
  fun i j => decide (i = 0) && decide (j = 1)

/-- The fields of `SystemIrreducibilityAnalysis` that enter its ordering
(models/subsystem.py:226-312): φ, the subsystem's node indices, and — via
`cut_subsystem.cut` — the chosen cut's source and target node lists. -/
structure SIACandidate where
  phi : ℚ
  subsystemNodeIndices : List ℕ
  cutFromNodes : List ℕ
  cutToNodes : List ℕ
deriving DecidableEq

/-- `SystemIrreducibilityAnalysis.order_by` (models/subsystem.py:291-292):
`[self.phi, len(self.subsystem), self.subsystem.node_indices]`. -/
def sia_order_by (a : SIACandidate) : ℚ × ℕ × List ℕ :=
  (a.phi, a.subsystemNodeIndices.length, a.subsystemNodeIndices)

/-- Lexicographic order on lists of naturals (Python list comparison). -/
def list_lex_lt : List ℕ → List ℕ → Bool
  | [], [] => false
  | [], _ :: _ => true
  | _ :: _, [] => false
  | x :: xs, y :: ys => decide (x < y) || (decide (x = y) && list_lex_lt xs ys)

/-- Modelled from the spec: `cmp.Orderable` compares the `order_by` key lists
lexicographically (models/cmp.py is not under src/; Python compares lists
element by element). -/
def sia_lt (a b : SIACandidate) : Bool :=
  decide (a.phi < b.phi) ||
    (decide (a.phi = b.phi) &&
      (decide (a.subsystemNodeIndices.length < b.subsystemNodeIndices.length) ||
        (decide (a.subsystemNodeIndices.length = b.subsystemNodeIndices.length) &&
          list_lex_lt a.subsystemNodeIndices b.subsystemNodeIndices)))

/-- The combined concept list of `cyphi.compute._constellation_distance_emd`
(compute.py:166-169): shared concepts, then the concepts unique to `C1`
(computed in `constellation_distance`, compute.py:203), then those unique to
`C2`, then the null concept. -/
def cd_all_concepts {α : Type} [DecidableEq α] (C1 C2 : List α) (nullConcept : α) : List α :=
  C1.filter (fun c => decide (c ∈ C2)) ++ C1.filter (fun c => decide (c ∉ C2)) ++
    C2.filter (fun c => decide (c ∉ C1)) ++ [nullConcept]

/-- The two φ histograms of `cyphi.compute._constellation_distance_emd`
(compute.py:170-179): each concept's φ placed at its slot (0 when absent), then
the residual `sum(d1) - sum(d2)` written into the null (last) slot of `d2` when
positive and — exactly as in the source — written, still negative, into the null
slot of `d1` when negative. -/
def cd_histograms {α : Type} [DecidableEq α] {K : Type} [LinearOrderedField K]
    (phi : α → K) (C1 C2 : List α) (nullConcept : α) : List K × List K :=
  let allConcepts := cd_all_concepts C1 C2 nullConcept
  let d1 := allConcepts.map fun c => if c ∈ C1 then phi c else 0
  let d2 := allConcepts.map fun c => if c ∈ C2 then phi c else 0
  let residual := d1.sum - d2.sum
  (if residual < 0 then d1.set (d1.length - 1) residual else d1,
   if residual > 0 then d2.set (d2.length - 1) residual else d2)

/-- The dispatch test of `cyphi.compute.constellation_distance`
(compute.py:203-214): the simple path is taken iff one of the two
unique-concept lists is empty. -/
def uses_simple_path {α : Type} [DecidableEq α] (C1 C2 : List α) : Bool :=
  decide (C1.filter (fun c => decide (c ∉ C2)) = []) ||
    decide (C2.filter (fun c => decide (c ∉ C1)) = [])

/-- `cyphi.compute._constellation_distance_simple` (compute.py:150-160): make
`C1` the longer constellation, then sum `φ(c) · d(c, null)` over the destroyed
concepts.  The concept distance (a sum of two Hamming EMDs over expanded
repertoires, compute.py:129-147) is the parameter `conceptDist`. -/
def constellation_distance_simple {α : Type} [DecidableEq α] {K : Type}
    [LinearOrderedField K] (phi : α → K) (conceptDist : α → α → K) (nullConcept : α)
    (C1 C2 : List α) : K :=
  let p := if C2.length > C1.length then (C2, C1) else (C1, C2)
  ((p.1.filter fun c => decide (c ∉ p.2)).map fun c => phi c * conceptDist c nullConcept).sum

/-- A feasible transportation plan between supplies `a` and demands `b`. -/
def IsTransportPlan {k : ℕ} (a b : Fin k → ℝ) (F : Fin k → Fin k → ℝ) : Prop :=
  (∀ i j, 0 ≤ F i j) ∧ (∀ i, ∑ j, F i j = a i) ∧ (∀ j, ∑ i, F i j = b j)

/-- Modelled from the spec (§1, §4.7): the third-party EMD solver is "assumed
available as a library call and is not redefined here"; it is modelled as the
optimal-transport cost, the infimum of plan costs over feasible plans. -/
noncomputable def emdCost {k : ℕ} (M : Fin k → Fin k → ℝ) (a b : Fin k → ℝ) : ℝ :=
  sInf {c : ℝ | ∃ F, IsTransportPlan a b F ∧ c = ∑ i, ∑ j, F i j * M i j}

/-- The value computed by `cyphi.compute._constellation_distance_emd`
(compute.py:163-185): the histograms and combined concept list from the source,
the ground matrix with entry [r][c] = concept_distance(allConcepts[c],
allConcepts[r]) exactly as built on compute.py:181-183, and the solver modelled
by `emdCost`. -/
noncomputable def constellation_distance_emd_value {α : Type} [DecidableEq α]
    (phi : α → ℝ) (conceptDist : α → α → ℝ) (nullConcept : α) (C1 C2 : List α) : ℝ :=
  let allConcepts := cd_all_concepts C1 C2 nullConcept
  let hist := cd_histograms phi C1 C2 nullConcept
  emdCost
    (fun r c : Fin allConcepts.length =>
      conceptDist (allConcepts.getD c.val nullConcept) (allConcepts.getD r.val nullConcept))
    (fun i => hist.1.getD i.val 0) (fun i => hist.2.getD i.val 0)

/-- A 1-node network with a self-loop whose unit is always OFF at the next step,
in current state ON: the current state is unreachable, so the joint cause
repertoire is identically zero. -/
def net1on : Subsys 1 :=
  { tpm := fun _ _ => 0
    cm := fun _ _ => true
    state := fun _ => true
    nodeIndices := Finset.univ }

/-- The same 1-node network in current state OFF (a reachable state). -/
def net1off : Subsys 1 :=
  { tpm := fun _ _ => 0
    cm := fun _ _ => true
    state := fun _ => false
    nodeIndices := Finset.univ }

/-- Modelled from the spec: applying a `Cut(from_nodes, to_nodes)` "zeroes CM
entries cm[i,j] where i ∈ from_nodes ∧ j ∈ to_nodes" (§3); the cut classes of
`cyphi.models` are not under src/, but pyphi/subsystem.py:107 shows the cut
acting on the connectivity matrix exactly this way. -/
def apply_cut {n : ℕ} (fromNodes toNodes : List (Fin n)) (cm : Fin n → Fin n → Bool) :
    Fin n → Fin n → Bool :=
  fun i j => if i ∈ fromNodes ∧ j ∈ toNodes then false else cm i j

/-- The fields of a cyphi `BigMip` that the big-Φ search reads: Φ, the
unpartitioned constellation and the partitioned constellation, with concepts
drawn from an abstract type `γ`.  (The result also carries the subsystem and
the chosen cut; those are constant across, respectively irrelevant to, the
comparisons below and are not represented.) -/
structure BigMip (γ : Type) where
  phi : ℚ
  unpartitioned_constellation : List γ
  partitioned_constellation : List γ
deriving DecidableEq

/-- `cyphi.compute._null_mip` (compute.py:226-234): Φ = 0 and empty
unpartitioned and partitioned constellations. -/
def null_mip (γ : Type) : BigMip γ :=
  { phi := 0, unpartitioned_constellation := [], partitioned_constellation := [] }

/-- `cyphi.compute.constellation_distance` (compute.py:188-214): if one of the
two unique-concept lists is empty take `_constellation_distance_simple`,
otherwise `_constellation_distance_emd`.  The EMD branch (whose value depends
on the external solver) enters as the parameter `cdEmd`. -/
def constellation_distance {γ : Type} [DecidableEq γ] (phi : γ → ℚ)
    (conceptDist : γ → γ → ℚ) (nullConcept : γ) (cdEmd : List γ → List γ → ℚ)
    (C1 C2 : List γ) : ℚ :=
  if uses_simple_path C1 C2 = true then
    constellation_distance_simple phi conceptDist nullConcept C1 C2
  else cdEmd C1 C2

/-- `cyphi.compute._evaluate_cut` (compute.py:253-283): build the forward cut
`Cut(partition[0], partition[1])` and the backward cut, compute each cut
subsystem's constellation and its distance to the unpartitioned constellation,
take the φ-smaller of the two BigMips (`min` of two arguments keeps the first
on ties), and return it only if its φ exceeds `EPSILON`, else the null BigMip.
The constellation of a cut subsystem enters as `ces` applied to the cut-applied
connectivity matrix: per the spec (§2) the subsystem is a pure view whose only
cut-dependence is the CM with cut edges removed (§3, pyphi/subsystem.py:107),
and `cyphi.compute.constellation` is deterministic in that view. -/
def evaluate_cut {n : ℕ} {γ : Type} [DecidableEq γ] (phi : γ → ℚ)
    (conceptDist : γ → γ → ℚ) (nullConcept : γ) (cdEmd : List γ → List γ → ℚ)
    (ces : (Fin n → Fin n → Bool) → List γ) (cm : Fin n → Fin n → Bool)
    (unpartitioned : List γ) (partition : List (Fin n) × List (Fin n)) : BigMip γ :=
  let forwardConstellation := ces (apply_cut partition.1 partition.2 cm)
  let forwardMip : BigMip γ :=
    { phi := constellation_distance phi conceptDist nullConcept cdEmd
        unpartitioned forwardConstellation
      unpartitioned_constellation := unpartitioned
      partitioned_constellation := forwardConstellation }
  let backwardConstellation := ces (apply_cut partition.2 partition.1 cm)
  let backwardMip : BigMip γ :=
    { phi := constellation_distance phi conceptDist nullConcept cdEmd
        unpartitioned backwardConstellation
      unpartitioned_constellation := unpartitioned
      partitioned_constellation := backwardConstellation }
  let mip := if backwardMip.phi < forwardMip.phi then backwardMip else forwardMip
  if EPSILON < mip.phi then mip else null_mip γ

/-- Modelled from the spec: Python's `min(mip_candidates)` (compute.py:329)
under the BigMip ordering of `cyphi.models` (not under src/), which per §6
compares Φ first ("`min` over cuts uses a total order defined as (φ, ...)");
all candidates of one search share the subsystem, so only φ discriminates, and
`min` keeps the earliest minimum.  `min` of an empty list raises in Python; the
`[]` case below is unreachable from `big_mip` on two or more nodes. -/
def min_mips {γ : Type} : List (BigMip γ) → BigMip γ
  | [] => null_mip γ
  | x :: xs => xs.foldl (fun acc y => if y.phi < acc.phi then y else acc) x

/-- The index mask with a 1-bit at each listed position (a proof device used to
name the enumeration index of a bipartition). -/
def list_or_mask : List ℕ → ℕ
  | [] => 0
  | k :: ks => 2 ^ k ||| list_or_mask ks

/-- `cyphi.utils.bipartition` (utils.py:192-217): for each `i` below
`2^(size-1)`, the bitstring `bin(i)[2:].zfill(size)[::-1]` has bit `k` of `i`
at position `k`; `_bitstring_index` selects the elements at 1-positions and,
with the flipped bitstring, the elements at 0-positions. -/
def cyphi_bipartition {n : ℕ} (l : List (Fin n)) : List (List (Fin n) × List (Fin n)) :=
  (List.range (2 ^ (l.length - 1))).map fun i =>
    ((l.enum.filter fun p => i.testBit p.1).map Prod.snd,
     (l.enum.filter fun p => !(i.testBit p.1)).map Prod.snd)

/-- `cyphi.compute._big_mip` (compute.py:286-329) over the subsystem-induced
connectivity matrix on `Fin n` (the subsystem's nodes in index order): the
single-node special case (`_single_node_mip`, whose value depends on an
options flag, enters as a parameter), the empty-subsystem null return, the
scipy connected-components guard, and otherwise the minimum of
`_evaluate_cut` over `utils.bipartition(subsystem.nodes)[1:]` — the first
bipartition (the trivial one) is skipped.  The unpartitioned constellation is
`constellation(subsystem, subsystem.null_cut)`; the null cut zeroes nothing
(§3), so it is `ces` of the uncut matrix. -/
def big_mip {n : ℕ} {γ : Type} [DecidableEq γ] (phi : γ → ℚ)
    (conceptDist : γ → γ → ℚ) (nullConcept : γ) (cdEmd : List γ → List γ → ℚ)
    (ces : (Fin n → Fin n → Bool) → List γ) (singleNodeMip : BigMip γ)
    (cm : Fin n → Fin n → Bool) : BigMip γ :=
  if n = 1 then singleNodeMip
  else if n = 0 then null_mip γ
  else if big_mip_connectivity_null_guard cm = true then null_mip γ
  else
    min_mips (((cyphi_bipartition (List.finRange n)).tail).map
      (evaluate_cut phi conceptDist nullConcept cdEmd ces cm (ces cm)))

/-- The vertices that reach `j` by a path of at most `k` edges (a proof device
for the saturation of `reachB`). -/
def reachSet {n : ℕ} (adj : Fin n → Fin n → Bool) (j : Fin n) (k : ℕ) : Finset (Fin n) :=
  Finset.univ.filter fun v => reachN adj k v j = true

/-! ## Helper lemmas -/

theorem NArr.get_and {n : ℕ} (a : NArr n) (f : Fin n → Bool) :
    a.get (fun i => f i && a.shape i) = a.get f := by
  unfold NArr.get
  congr 1
  funext i
  rw [Bool.and_assoc, Bool.and_self]

theorem NArr.normalize_entrySum {n : ℕ} (a : NArr n) (h : a.entrySum ≠ 0) :
    a.normalize.entrySum = 1 := by
  unfold NArr.normalize
  rw [if_neg h]
  show (∑ f ∈ a.support, NArr.get ⟨a.shape, fun f => a.get f / a.entrySum⟩ f) = 1
  have hg : ∀ f, NArr.get ⟨a.shape, fun f => a.get f / a.entrySum⟩ f = a.get f / a.entrySum := by
    intro f
    show a.get (fun i => f i && a.shape i) / a.entrySum = _
    rw [a.get_and]
  rw [Finset.sum_congr rfl fun f _ => hg f, ← Finset.sum_div]
  exact div_self h

theorem NArr.support_card_max_ent {n : ℕ} (P : Finset (Fin n)) :
    (NArr.max_entropy_distribution P).support.card = 2 ^ P.card := by
  have e : {f : Fin n → Bool // f ∈ (NArr.max_entropy_distribution P).support} ≃
      ({x : Fin n // x ∈ P} → Bool) := by
    refine ⟨fun f => fun p => f.1 p.1,
      fun g => ⟨fun x => if h : x ∈ P then g ⟨x, h⟩ else false, ?_⟩, ?_, ?_⟩
    · unfold NArr.support NArr.max_entropy_distribution
      rw [Finset.mem_filter]
      refine ⟨Finset.mem_univ _, ?_⟩
      intro i hi
      exact dif_neg (of_decide_eq_false hi)
    · intro f
      apply Subtype.ext
      funext x
      show (if h : x ∈ P then f.1 x else false) = f.1 x
      by_cases hx : x ∈ P
      · exact dif_pos hx
      · rw [dif_neg hx]
        have hf := f.2
        unfold NArr.support NArr.max_entropy_distribution at hf
        rw [Finset.mem_filter] at hf
        exact (hf.2 x (decide_eq_false hx)).symm
    · intro g
      funext p
      show (if h : p.1 ∈ P then g ⟨p.1, h⟩ else false) = g p
      exact dif_pos p.2
  have h1 : (NArr.max_entropy_distribution P).support.card =
      Fintype.card {f : Fin n → Bool // f ∈ (NArr.max_entropy_distribution P).support} :=
    (Fintype.card_coe _).symm
  rw [h1, Fintype.card_congr e, Fintype.card_fun, Fintype.card_coe, Fintype.card_bool]

theorem NArr.max_entropy_entrySum {n : ℕ} (P : Finset (Fin n)) :
    (NArr.max_entropy_distribution P).entrySum = 1 := by
  unfold NArr.entrySum
  have hg : ∀ f, (NArr.max_entropy_distribution P).get f = 1 / 2 ^ P.card := fun f => rfl
  rw [Finset.sum_congr rfl fun f _ => hg f, Finset.sum_const, NArr.support_card_max_ent,
    nsmul_eq_mul, mul_one_div]
  push_cast
  exact div_self (by positivity)

/-! ## Claim C4 -/

/-- Claim C4, counterexample: for the 1-node self-loop network `net1on`, whose
current state ON is unreachable (the unit is always OFF next step), the cause
repertoire of mechanism {0} over the non-empty purview {0} sums to 0, not to 1
within EPSILON.  Whether the missing `distribution.normalize` guards the
zero-sum case (returning the array unchanged, as modelled) or divides by the
zero sum, the claimed total of 1 is impossible here, since the joint product of
single-node cause repertoires is identically zero. -/
theorem cause_repertoire_unreachable_counterexample :
    (net1on.cause_repertoire {0} {0}).entrySum = 0 ∧
    ¬ ((1 : ℚ) - EPSILON ≤ (net1on.cause_repertoire {0} {0}).entrySum) := by
  with_unfolding_all decide

/-- Claim C4 (amended): for the empty purview, `cause_repertoire` returns the
scalar 1; for a non-empty purview the returned repertoire sums to 1 *unless it
is identically zero* (unreachable current state) — that is, whenever the
returned array's total is nonzero, it is exactly 1. -/
theorem cause_repertoire_normalization {n : ℕ} (sub : Subsys n)
    (mechanism P : Finset (Fin n)) :
    (P = ∅ → sub.cause_repertoire mechanism P = NArr.scalarOne n) ∧
    (P ≠ ∅ → (sub.cause_repertoire mechanism P).entrySum ≠ 0 →
      (sub.cause_repertoire mechanism P).entrySum = 1) := by
  constructor
  · intro h
    unfold Subsys.cause_repertoire
    rw [if_pos h]
  · intro hP hne
    unfold Subsys.cause_repertoire at hne ⊢
    rw [if_neg hP] at hne ⊢
    by_cases hm : mechanism = ∅
    · rw [if_pos hm]
      exact NArr.max_entropy_entrySum P
    · rw [if_neg hm] at hne ⊢
      by_cases hz : ((NArr.ones P).mul
          (NArr.listProd ((mechanism.sort (· ≤ ·)).map
            fun m => sub.single_node_cause_repertoire m P))).entrySum = 0
      · exfalso
        apply hne
        unfold NArr.normalize
        rw [if_pos hz]
        exact hz
      · exact NArr.normalize_entrySum _ hz

/-- Claim C4, witness for the amended theorem: in the reachable state OFF of the
same network the cause repertoire of {0} over {0} has nonzero total, and the
theorem yields that this total is exactly 1. -/
theorem cause_repertoire_normalization_witness :
    ({0} : Finset (Fin 1)) ≠ ∅ ∧ (net1off.cause_repertoire {0} {0}).entrySum ≠ 0 ∧
    (net1off.cause_repertoire {0} {0}).entrySum = 1 :=
  ⟨by decide, by with_unfolding_all decide,
   (cause_repertoire_normalization net1off {0} {0}).2 (by decide)
     (by with_unfolding_all decide)⟩

/-! ## Claim C5 -/

/-- Claim C5, counterexample: for the 1-node network `net1on` (the unit is
always OFF next step), the effect repertoire of the *empty mechanism* over the
non-empty purview {0} has entry 0 at state ON, whereas the claimed uniform
value is 1/2^|purview| = 1/2.  The unconstrained effect repertoire is the
product of input-marginalized node TPM columns, not the max-entropy
distribution. -/
theorem effect_repertoire_empty_mechanism_counterexample :
    (net1on.effect_repertoire ∅ {0}).get (fun _ => true) = 0 ∧
    (NArr.max_entropy_distribution ({0} : Finset (Fin 1))).get (fun _ => true) =
      1 / 2 ^ (({0} : Finset (Fin 1)).card) ∧
    (net1on.effect_repertoire ∅ {0}).get (fun _ => true) ≠
      1 / 2 ^ (({0} : Finset (Fin 1)).card) := by
  with_unfolding_all decide

/-- Claim C5 (amended): for every non-empty purview the *cause* repertoire of
the empty mechanism equals the max-entropy (uniform) distribution over the
purview, with every entry 1/2^|purview|; the *effect* repertoire of the empty
mechanism is instead the broadcast product of the single-node effect
repertoires (the input-marginalized node TPMs), which need not be uniform. -/
theorem cause_repertoire_empty_mechanism_max_entropy {n : ℕ} (sub : Subsys n)
    (P : Finset (Fin n)) (hP : P ≠ ∅) :
    sub.cause_repertoire ∅ P = NArr.max_entropy_distribution P := by
  unfold Subsys.cause_repertoire
  rw [if_neg hP, if_pos rfl]

/-- Claim C5, witness for the amended theorem at the concrete network `net1off`
and purview {0}. -/
theorem cause_repertoire_empty_mechanism_max_entropy_witness :
    ({0} : Finset (Fin 1)) ≠ ∅ ∧
    net1off.cause_repertoire ∅ {0} = NArr.max_entropy_distribution {0} :=
  ⟨by decide, cause_repertoire_empty_mechanism_max_entropy net1off {0} (by decide)⟩

/-! ## Claim C8 -/

/-- Claim C8: for every mechanism and non-empty purview in the cause direction,
if the unpartitioned cause repertoire is identically zero (the current state is
unreachable), `find_mip` returns normally — in this total embedding, through the
dedicated guard rather than the partition loop — with φ = 0, for any distance
function and any partition enumeration. -/
theorem find_mip_unreachable_phi_zero {n : ℕ} (dist : NArr n → NArr n → ℚ)
    (sub : Subsys n) (mechanism P : Finset (Fin n))
    (partitions : List (List (PartPair n))) (hP : P ≠ ∅)
    (hz : (sub.repertoire Direction.cause mechanism P).isZero) :
    sub.find_mip_phi dist Direction.cause mechanism P partitions = 0 := by
  unfold Subsys.find_mip_phi
  rw [if_neg hP, if_pos ⟨rfl, hz⟩]

/-- Claim C8, witness: the unreachable state of `net1on` gives an identically
zero cause repertoire for mechanism {0} over purview {0}, and `find_mip_phi`
returns 0 there. -/
theorem find_mip_unreachable_phi_zero_witness :
    ({0} : Finset (Fin 1)) ≠ ∅ ∧ (net1on.repertoire Direction.cause {0} {0}).isZero ∧
    net1on.find_mip_phi (fun _ _ => 0) Direction.cause {0} {0} [] = 0 :=
  ⟨by decide, by with_unfolding_all decide,
   find_mip_unreachable_phi_zero (fun _ _ => 0) net1on {0} {0} [] (by decide)
     (by with_unfolding_all decide)⟩

/-! ## Claim C3 -/

/-- Claim C3: every concept in a cyphi constellation has a non-empty mechanism
and φ at least EPSILON, and a mechanism whose min(cause φ, effect φ) is below
EPSILON contributes no concept — for any core-φ functions and any connectivity
pre-check. -/
theorem constellation_concepts_filtered {μ : Type} [DecidableEq μ]
    (nodes : List μ) (ccp cep : List μ → ℚ) (connOk : List μ → Bool) :
    (∀ c ∈ cyphi_constellation nodes ccp cep connOk, c.mechanism ≠ [] ∧ EPSILON ≤ c.phi) ∧
    (∀ mech : List μ, min (ccp mech) (cep mech) < EPSILON →
      cyphi_concept ccp cep connOk mech = none) := by
  constructor
  · intro c hc
    unfold cyphi_constellation at hc
    rcases List.mem_filterMap.mp hc with ⟨mech, _, hsome⟩
    unfold cyphi_concept at hsome
    by_cases h1 : mech = []
    · rw [if_pos h1] at hsome
      exact Option.noConfusion hsome
    · rw [if_neg h1] at hsome
      by_cases h2 : connOk mech = false
      · rw [if_pos h2] at hsome
        exact Option.noConfusion hsome
      · rw [if_neg h2] at hsome
        by_cases h3 : min (ccp mech) (cep mech) < EPSILON
        · rw [if_pos h3] at hsome
          exact Option.noConfusion hsome
        · rw [if_neg h3] at hsome
          injection hsome with h
          cases h
          exact ⟨h1, not_lt.mp h3⟩
  · intro mech h3
    unfold cyphi_concept
    by_cases h1 : mech = []
    · rw [if_pos h1]
    · rw [if_neg h1]
      by_cases h2 : connOk mech = false
      · rw [if_pos h2]
      · rw [if_neg h2, if_pos h3]

/-- Claim C3, witness: a concrete one-node constellation whose single concept
has mechanism [0] and φ = 1 ≥ EPSILON. -/
theorem constellation_concepts_filtered_witness :
    ((⟨[0], 1⟩ : CyphiConcept ℕ) ∈
      cyphi_constellation [0] (fun _ => 1) (fun _ => 1) (fun _ => true)) ∧
    ((⟨[0], 1⟩ : CyphiConcept ℕ).mechanism ≠ [] ∧
      EPSILON ≤ (⟨[0], 1⟩ : CyphiConcept ℕ).phi) :=
  ⟨by with_unfolding_all decide,
   (constellation_concepts_filtered [0] (fun _ => 1) (fun _ => 1) (fun _ => true)).1
     ⟨[0], 1⟩ (by with_unfolding_all decide)⟩

/-! ## Claim C6 -/

/-- Claim C6: evaluation of the `_constellation_distance_emd` histogram
construction on a concrete pair of constellations of the same subsystem
(concept 0 with φ=2 forming C₁, concept 1 with φ=1 forming C₂, null concept 2):
both orders take the general EMD path, the order (C₁,C₂) yields balanced
non-negative histograms ([2,0,0] against [0,1,1]), but the swapped order
(C₂,C₁) writes the *negative* residual −1 into the null slot of its first
histogram ([1,0,−1] against [0,2,0]) — an invalid, unbalanced input to the EMD
solver, so the two call orders hand the solver different mass configurations
and symmetry within ε fails. -/
theorem constellation_distance_residual_evaluation :
    uses_simple_path [(0 : ℕ)] [1] = false ∧
    uses_simple_path [(1 : ℕ)] [0] = false ∧
    cd_histograms (K := ℚ) (fun c => if c = 0 then 2 else 1) [0] [1] 2 =
      ([2, 0, 0], [0, 1, 1]) ∧
    cd_histograms (K := ℚ) (fun c => if c = 0 then 2 else 1) [1] [0] 2 =
      ([1, 0, -1], [0, 2, 0]) := by
  with_unfolding_all decide

/-! ## Claim C9 -/

/-- Claim C9, counterexample: two candidate analyses with equal φ and the same
subsystem but different cuts have identical `order_by` keys, and neither
compares below the other — the comparison used for `min` over cuts carries no
cut tie-breaker at all, so it is not a total order on candidates ordered
"deterministically by their cut". -/
theorem sia_ordering_cut_counterexample :
    sia_order_by (⟨1, [0, 1], [0], [1]⟩ : SIACandidate) =
      sia_order_by (⟨1, [0, 1], [1], [0]⟩ : SIACandidate) ∧
    (⟨1, [0, 1], [0], [1]⟩ : SIACandidate) ≠ (⟨1, [0, 1], [1], [0]⟩ : SIACandidate) ∧
    sia_lt (⟨1, [0, 1], [0], [1]⟩ : SIACandidate) (⟨1, [0, 1], [1], [0]⟩ : SIACandidate) =
      false ∧
    sia_lt (⟨1, [0, 1], [1], [0]⟩ : SIACandidate) (⟨1, [0, 1], [0], [1]⟩ : SIACandidate) =
      false := by
  with_unfolding_all decide

/-- Helper: the lexicographic list order is irreflexive. -/
theorem list_lex_lt_irrefl : ∀ l : List ℕ, list_lex_lt l l = false := by
  intro l
  induction l with
  | nil => rfl
  | cons x xs ih => simp [list_lex_lt, ih]

/-- Claim C9 (amended): the comparison over candidate analyses is determined by
the key (φ, subsystem size, subsystem node indices) only; the cut is not part of
the key, so two candidates with equal φ for the same subsystem are equivalent
under the comparison regardless of their cuts (ties are left to evaluation
order, not broken by cut identity). -/
theorem sia_comparison_ignores_cut (a b : SIACandidate)
    (hphi : a.phi = b.phi) (hnodes : a.subsystemNodeIndices = b.subsystemNodeIndices) :
    sia_order_by a = sia_order_by b ∧ sia_lt a b = false ∧ sia_lt b a = false := by
  refine ⟨?_, ?_, ?_⟩
  · unfold sia_order_by
    rw [hphi, hnodes]
  · unfold sia_lt
    rw [hphi, hnodes]
    simp [list_lex_lt_irrefl]
  · unfold sia_lt
    rw [hphi, hnodes]
    simp [list_lex_lt_irrefl]

/-- Claim C9, witness for the amended theorem at two concrete equal-key
candidates with different cuts. -/
theorem sia_comparison_ignores_cut_witness :
    ((⟨1, [0], [0], []⟩ : SIACandidate).phi = (⟨1, [0], [], [0]⟩ : SIACandidate).phi) ∧
    ((⟨1, [0], [0], []⟩ : SIACandidate).subsystemNodeIndices =
      (⟨1, [0], [], [0]⟩ : SIACandidate).subsystemNodeIndices) ∧
    (sia_order_by (⟨1, [0], [0], []⟩ : SIACandidate) =
        sia_order_by (⟨1, [0], [], [0]⟩ : SIACandidate) ∧
      sia_lt (⟨1, [0], [0], []⟩ : SIACandidate) (⟨1, [0], [], [0]⟩ : SIACandidate) = false ∧
      sia_lt (⟨1, [0], [], [0]⟩ : SIACandidate) (⟨1, [0], [0], []⟩ : SIACandidate) = false) :=
  ⟨rfl, rfl, sia_comparison_ignores_cut _ _ rfl rfl⟩

/-! ## Claim C10 -/

/-- Claim C10: `expand_repertoire` raises ValueError iff the purview inferred
from the repertoire's shape is not contained in the target purview (defaulted
to the whole subsystem); on success it returns the repertoire multiplied by the
unconstrained repertoire over the missing nodes and normalized; and a `None`
repertoire is passed through as `None` without error. -/
theorem expand_repertoire_spec {n : ℕ} (sub : Subsys n) (d : Direction)
    (rep : Option (NArr n)) (newPurview : Option (Finset (Fin n))) :
    (sub.expand_repertoire d rep newPurview = Except.ok none ↔ rep = none) ∧
    ((∃ e, sub.expand_repertoire d rep newPurview = Except.error e) ↔
      (∃ r, rep = some r ∧ ¬ r.purviewOf ⊆ newPurview.getD sub.nodeIndices)) ∧
    (∀ r, rep = some r → r.purviewOf ⊆ newPurview.getD sub.nodeIndices →
      sub.expand_repertoire d rep newPurview = Except.ok (some (NArr.normalize
        (r.mul (sub.unconstrained_repertoire d
          (newPurview.getD sub.nodeIndices \ r.purviewOf)))))) := by
  cases rep with
  | none =>
    refine ⟨by simp [Subsys.expand_repertoire], ?_, ?_⟩
    · constructor
      · rintro ⟨e, he⟩
        simp [Subsys.expand_repertoire] at he
      · rintro ⟨r, hr, _⟩
        exact Option.noConfusion hr
    · intro r hr
      exact absurd hr (by simp)
  | some r =>
    by_cases hsub : r.purviewOf ⊆ newPurview.getD sub.nodeIndices
    · have he : sub.expand_repertoire d (some r) newPurview = Except.ok (some (NArr.normalize
          (r.mul (sub.unconstrained_repertoire d
            (newPurview.getD sub.nodeIndices \ r.purviewOf))))) := by
        simp only [Subsys.expand_repertoire]
        rw [if_neg (not_not_intro hsub)]
      refine ⟨?_, ?_, ?_⟩
      · rw [he]
        simp
      · rw [he]
        constructor
        · rintro ⟨e, hee⟩
          exact Except.noConfusion hee
        · rintro ⟨r', hr', hnsub⟩
          injection hr' with h
          subst h
          exact absurd hsub hnsub
      · intro r' hr' _
        injection hr' with h
        subst h
        exact he
    · have he : sub.expand_repertoire d (some r) newPurview = Except.error () := by
        simp only [Subsys.expand_repertoire]
        rw [if_pos hsub]
      refine ⟨?_, ?_, ?_⟩
      · rw [he]
        simp
      · rw [he]
        constructor
        · intro _
          exact ⟨r, rfl, hsub⟩
        · intro _
          exact ⟨(), rfl⟩
      · intro r' hr' hsub'
        injection hr' with h
        subst h
        exact absurd hsub' hsub

/-- Claim C10, witness: expanding the purview-{0} repertoire of ones to the
empty purview raises, and a `None` repertoire is returned as `None`. -/
theorem expand_repertoire_spec_witness :
    (∃ e, net1on.expand_repertoire Direction.cause (some (NArr.ones {0})) (some ∅) =
      Except.error e) ∧
    net1on.expand_repertoire Direction.cause none none = Except.ok none :=
  ⟨(expand_repertoire_spec net1on Direction.cause (some (NArr.ones {0})) (some ∅)).2.1.mpr
      ⟨NArr.ones {0}, rfl, by decide⟩,
   (expand_repertoire_spec net1on Direction.cause none none).1.mpr rfl⟩

/-! ## Claim C2 -/

/-- Helper: the min-fold never exceeds its initial accumulator. -/
theorem find_mip_fold_le_init {n : ℕ} (e : List (PartPair n) → ℚ) :
    ∀ (ps : List (List (PartPair n))) (acc : WithTop ℚ),
      ps.foldl (fun m p => min m (e p : WithTop ℚ)) acc ≤ acc := by
  intro ps
  induction ps with
  | nil => intro acc; exact le_refl acc
  | cons q ps ih =>
    intro acc
    rw [List.foldl_cons]
    exact le_trans (ih _) (min_le_left _ _)

/-- Helper: the min-fold is a lower bound on every listed value. -/
theorem find_mip_fold_le_mem {n : ℕ} (e : List (PartPair n) → ℚ) :
    ∀ (ps : List (List (PartPair n))) (acc : WithTop ℚ) (p : List (PartPair n)),
      p ∈ ps → ps.foldl (fun m p => min m (e p : WithTop ℚ)) acc ≤ (e p : WithTop ℚ) := by
  intro ps
  induction ps with
  | nil =>
    intro acc p hp
    exact absurd hp (List.not_mem_nil p)
  | cons q ps ih =>
    intro acc p hp
    rw [List.foldl_cons]
    rcases List.mem_cons.mp hp with h | h
    · subst h
      exact le_trans (find_mip_fold_le_init e ps _) (min_le_right _ _)
    · exact ih _ p h

/-- Helper: the min-fold equals the accumulator or one of the listed values. -/
theorem find_mip_fold_attains {n : ℕ} (e : List (PartPair n) → ℚ) :
    ∀ (ps : List (List (PartPair n))) (acc : WithTop ℚ),
      ps.foldl (fun m p => min m (e p : WithTop ℚ)) acc = acc ∨
        ∃ p ∈ ps, ps.foldl (fun m p => min m (e p : WithTop ℚ)) acc = (e p : WithTop ℚ) := by
  intro ps
  induction ps with
  | nil => intro acc; exact Or.inl rfl
  | cons q ps ih =>
    intro acc
    rw [List.foldl_cons]
    rcases ih (min acc (e q : WithTop ℚ)) with h | ⟨p, hp, h⟩
    · rcases le_total acc (e q : WithTop ℚ) with hle | hle
      · left
        rw [h, min_eq_left hle]
      · right
        exact ⟨q, List.mem_cons_self q ps, by rw [h, min_eq_right hle]⟩
    · right
      exact ⟨p, List.mem_cons_of_mem q hp, h⟩

/-- Helper: a fold starting at a value below every listed value stays there. -/
theorem find_mip_fold_of_le {n : ℕ} (e : List (PartPair n) → ℚ) :
    ∀ (ps : List (List (PartPair n))) (acc : WithTop ℚ),
      (∀ p ∈ ps, acc ≤ (e p : WithTop ℚ)) →
      ps.foldl (fun m p => min m (e p : WithTop ℚ)) acc = acc := by
  intro ps
  induction ps with
  | nil => intro acc _; rfl
  | cons q ps ih =>
    intro acc h
    rw [List.foldl_cons, min_eq_left (h q (List.mem_cons_self q ps))]
    exact ih acc fun p hp => h p (List.mem_cons_of_mem q hp)

/-- Helper: with non-negative partition values (the spec clamps distances at 0,
§7), the early-exit-at-zero loop of `find_mip` computes exactly the running
minimum. -/
theorem find_mip_loop_eq_foldl {n : ℕ} (e : List (PartPair n) → ℚ) :
    ∀ (ps : List (List (PartPair n))) (acc : WithTop ℚ),
      (∀ p ∈ ps, 0 ≤ e p) → 0 ≤ acc →
      Subsys.find_mip_loop e ps acc = ps.foldl (fun m p => min m (e p : WithTop ℚ)) acc := by
  intro ps
  induction ps with
  | nil =>
    intro acc _ _
    rfl
  | cons q ps ih =>
    intro acc hnn hacc
    rw [List.foldl_cons]
    simp only [Subsys.find_mip_loop]
    have hnn' : ∀ p ∈ ps, 0 ≤ e p := fun p hp => hnn p (List.mem_cons_of_mem q hp)
    by_cases h0 : e q = 0
    · rw [if_pos h0]
      have hmin : min acc (e q : WithTop ℚ) = (0 : WithTop ℚ) := by
        rw [h0, WithTop.coe_zero]
        exact min_eq_right hacc
      rw [hmin]
      symm
      apply find_mip_fold_of_le
      intro p hp
      have : ((0 : ℚ) : WithTop ℚ) ≤ (e p : WithTop ℚ) := WithTop.coe_le_coe.mpr (hnn' p hp)
      simpa using this
    · rw [if_neg h0]
      by_cases hlt : (e q : WithTop ℚ) < acc
      · rw [if_pos hlt, min_eq_right (le_of_lt hlt)]
        refine ih _ hnn' ?_
        have : ((0 : ℚ) : WithTop ℚ) ≤ (e q : WithTop ℚ) :=
          WithTop.coe_le_coe.mpr (hnn q (List.mem_cons_self q ps))
        simpa using this
      · rw [if_neg hlt, min_eq_left (not_lt.mp hlt)]
        exact ih acc hnn' hacc

/-- Claim C2: for every direction, mechanism and non-empty purview whose
unpartitioned repertoire is not identically zero, and for every (non-empty)
partition enumeration whose evaluated distances are non-negative (the spec
clamps numeric noise at 0, §7), the φ returned by `find_mip` is exactly the
minimum over the enumerated partitions of the distance between the
unpartitioned repertoire and that partition's partitioned repertoire; in
particular it is 0 as soon as some enumerated partition is at distance 0. -/
theorem find_mip_phi_is_minimum {n : ℕ} (dist : NArr n → NArr n → ℚ) (sub : Subsys n)
    (d : Direction) (mechanism P : Finset (Fin n))
    (partitions : List (List (PartPair n))) (hP : P ≠ ∅)
    (hz : ¬ (sub.repertoire d mechanism P).isZero) (hne : partitions ≠ [])
    (hnn : ∀ p ∈ partitions, 0 ≤ sub.evaluate_partition_phi dist d mechanism P p) :
    ∃ q : ℚ, sub.find_mip_phi dist d mechanism P partitions = (q : WithTop ℚ) ∧
      (∀ p ∈ partitions, q ≤ sub.evaluate_partition_phi dist d mechanism P p) ∧
      (∃ p ∈ partitions, q = sub.evaluate_partition_phi dist d mechanism P p) ∧
      ((∃ p ∈ partitions, sub.evaluate_partition_phi dist d mechanism P p = 0) → q = 0) := by
  unfold Subsys.find_mip_phi
  rw [if_neg hP, if_neg (fun h => hz h.2)]
  set e := sub.evaluate_partition_phi dist d mechanism P with he
  rw [find_mip_loop_eq_foldl e partitions ⊤ hnn le_top]
  rcases find_mip_fold_attains e partitions ⊤ with h | ⟨p, hp, h⟩
  · exfalso
    rcases List.exists_mem_of_ne_nil partitions hne with ⟨p₀, hp₀⟩
    have hle := find_mip_fold_le_mem e partitions ⊤ p₀ hp₀
    rw [h] at hle
    exact (WithTop.not_top_le_coe _) hle
  · refine ⟨e p, h, ?_, ⟨p, hp, rfl⟩, ?_⟩
    · intro p' hp'
      have hle := find_mip_fold_le_mem e partitions ⊤ p' hp'
      rw [h] at hle
      exact_mod_cast hle
    · rintro ⟨p', hp', hz'⟩
      have hle := find_mip_fold_le_mem e partitions ⊤ p' hp'
      rw [h] at hle
      have h1 : e p ≤ e p' := by exact_mod_cast hle
      have h2 : 0 ≤ e p := hnn p hp
      rw [hz'] at h1
      exact le_antisymm h1 h2

/-- Claim C2, witness: a concrete subsystem, direction, mechanism, purview and
one-partition enumeration with the zero distance function. -/
theorem find_mip_phi_is_minimum_witness :
    ({0} : Finset (Fin 1)) ≠ ∅ ∧
    (¬ (net1off.repertoire Direction.effect {0} {0}).isZero) ∧
    ([[(⟨∅, ∅⟩ : PartPair 1)]] : List (List (PartPair 1))) ≠ [] ∧
    (∃ q : ℚ,
      net1off.find_mip_phi (fun _ _ => 0) Direction.effect {0} {0} [[⟨∅, ∅⟩]] =
        (q : WithTop ℚ) ∧
      (∀ p ∈ ([[(⟨∅, ∅⟩ : PartPair 1)]] : List (List (PartPair 1))),
        q ≤ net1off.evaluate_partition_phi (fun _ _ => 0) Direction.effect {0} {0} p) ∧
      (∃ p ∈ ([[(⟨∅, ∅⟩ : PartPair 1)]] : List (List (PartPair 1))),
        q = net1off.evaluate_partition_phi (fun _ _ => 0) Direction.effect {0} {0} p) ∧
      ((∃ p ∈ ([[(⟨∅, ∅⟩ : PartPair 1)]] : List (List (PartPair 1))),
        net1off.evaluate_partition_phi (fun _ _ => 0) Direction.effect {0} {0} p = 0) →
        q = 0)) :=
  ⟨by decide, by with_unfolding_all decide, List.cons_ne_nil _ _,
   find_mip_phi_is_minimum (fun _ _ => 0) net1off Direction.effect {0} {0} [[⟨∅, ∅⟩]]
     (by decide) (by with_unfolding_all decide) (List.cons_ne_nil _ _)
     (fun p _ => le_refl 0)⟩

/-! ## Claim C7: EMD helper lemmas -/

/-- Helper (optimal transport to a null sink): when the demands are dominated by
the supplies everywhere except at a null slot `z` that carries no supply, total
mass balances, the ground cost vanishes on the diagonal and satisfies the
triangle inequality toward `z`, the EMD equals the direct cost of moving each
excess supply straight to the null slot. -/
theorem emdCost_to_null {k : ℕ} (M : Fin k → Fin k → ℝ) (a b : Fin k → ℝ) (z : Fin k)
    (hMdiag : ∀ i, M i i = 0)
    (hMtri : ∀ i j, M i z ≤ M i j + M j z)
    (haz : a z = 0)
    (hba : ∀ j, j ≠ z → b j ≤ a j)
    (hbnn : ∀ j, j ≠ z → 0 ≤ b j)
    (hbal : ∑ j, b j = ∑ j, a j) :
    emdCost M a b = ∑ j, (a j - b j) * M j z := by
  have sum_if_ne : ∀ c : Fin k → ℝ, (∑ i, if i = z then 0 else c i) = (∑ i, c i) - c z := by
    intro c
    have hpt : ∀ i, (if i = z then 0 else c i) = c i - (if i = z then c i else 0) := by
      intro i
      by_cases hi : i = z
      · rw [if_pos hi, if_pos hi]
        ring
      · rw [if_neg hi, if_neg hi]
        ring
    rw [Finset.sum_congr rfl fun i _ => hpt i, Finset.sum_sub_distrib,
      Finset.sum_ite_eq' Finset.univ z c, if_pos (Finset.mem_univ z)]
  set F : Fin k → Fin k → ℝ := fun i j =>
    if i = z then 0 else (if j = z then a i - b i else 0) + (if j = i then b i else 0)
    with hFdef
  have hFz : ∀ j, F z j = 0 := by
    intro j
    simp [hFdef]
  have hFne : ∀ i j, i ≠ z →
      F i j = (if j = z then a i - b i else 0) + (if j = i then b i else 0) := by
    intro i j hi
    simp only [hFdef]
    rw [if_neg hi]
  have hFplan : IsTransportPlan a b F := by
    refine ⟨?_, ?_, ?_⟩
    · intro i j
      by_cases hi : i = z
      · rw [hi, hFz]
      · rw [hFne i j hi]
        have h1 : (0:ℝ) ≤ if j = z then a i - b i else 0 := by
          by_cases hj : j = z
          · rw [if_pos hj]
            have := hba i hi
            linarith
          · rw [if_neg hj]
        have h2 : (0:ℝ) ≤ if j = i then b i else 0 := by
          by_cases hj : j = i
          · rw [if_pos hj]
            exact hbnn i hi
          · rw [if_neg hj]
        linarith
    · intro i
      by_cases hi : i = z
      · rw [hi, haz]
        rw [Finset.sum_congr rfl fun j _ => hFz j]
        exact Finset.sum_const_zero
      · rw [Finset.sum_congr rfl fun j _ => hFne i j hi, Finset.sum_add_distrib,
          Finset.sum_ite_eq' Finset.univ z fun _ => a i - b i,
          Finset.sum_ite_eq' Finset.univ i fun _ => b i, if_pos (Finset.mem_univ z),
          if_pos (Finset.mem_univ i)]
        ring
    · intro j
      by_cases hj : j = z
      · rw [hj]
        have hpt : ∀ i, F i z = if i = z then 0 else a i - b i := by
          intro i
          by_cases hi : i = z
          · rw [hi, hFz, if_pos rfl]
          · rw [hFne i z hi, if_pos rfl, if_neg hi, if_neg fun h : z = i => hi h.symm]
            ring
        rw [Finset.sum_congr rfl fun i _ => hpt i, sum_if_ne, Finset.sum_sub_distrib, hbal,
          haz]
        ring
      · have hpt : ∀ i, F i j = if i = j then b i else 0 := by
          intro i
          by_cases hi : i = z
          · have hzj : ¬ z = j := fun h => hj h.symm
            rw [hi, hFz, if_neg hzj]
          · rw [hFne i j hi, if_neg hj]
            by_cases hij : j = i
            · rw [if_pos hij, if_pos hij.symm]
              ring
            · rw [if_neg hij, if_neg fun h : i = j => hij h.symm]
              ring
        rw [Finset.sum_congr rfl fun i _ => hpt i, Finset.sum_ite_eq' Finset.univ j b,
          if_pos (Finset.mem_univ j)]
  have hFcost : (∑ i, ∑ j, F i j * M i j) = ∑ j, (a j - b j) * M j z := by
    have hrow : ∀ i, (∑ j, F i j * M i j) = if i = z then 0 else (a i - b i) * M i z := by
      intro i
      by_cases hi : i = z
      · rw [if_pos hi]
        have hz0 : ∀ j, F i j * M i j = 0 := by
          intro j
          rw [hi, hFz, zero_mul]
        rw [Finset.sum_congr rfl fun j _ => hz0 j]
        exact Finset.sum_const_zero
      · rw [if_neg hi]
        have hpt : ∀ j, F i j * M i j =
            (if j = z then (a i - b i) * M i j else 0) +
              (if j = i then b i * M i j else 0) := by
          intro j
          rw [hFne i j hi]
          by_cases h1 : j = z
          · have h2 : ¬ j = i := fun h => hi (by rw [← h, h1])
            rw [if_pos h1, if_pos h1, if_neg h2, if_neg h2]
            ring
          · by_cases h2 : j = i
            · rw [if_neg h1, if_neg h1, if_pos h2, if_pos h2]
              ring
            · rw [if_neg h1, if_neg h1, if_neg h2, if_neg h2]
              ring
        rw [Finset.sum_congr rfl fun j _ => hpt j, Finset.sum_add_distrib,
          Finset.sum_ite_eq' Finset.univ z fun j => (a i - b i) * M i j,
          Finset.sum_ite_eq' Finset.univ i fun j => b i * M i j,
          if_pos (Finset.mem_univ z), if_pos (Finset.mem_univ i), hMdiag i]
        ring
    rw [Finset.sum_congr rfl fun i _ => hrow i, sum_if_ne, haz, hMdiag z]
    ring
  have hlb : ∀ c ∈ {c : ℝ | ∃ F, IsTransportPlan a b F ∧
      c = ∑ i, ∑ j, F i j * M i j}, (∑ j, (a j - b j) * M j z) ≤ c := by
    rintro c ⟨G, ⟨hGnn, hGrow, hGcol⟩, rfl⟩
    have key : ∀ i j, G i j * (M i z - M j z) ≤ G i j * M i j := by
      intro i j
      apply mul_le_mul_of_nonneg_left _ (hGnn i j)
      linarith [hMtri i j]
    have step1 : (∑ j, (a j - b j) * M j z) =
        (∑ i, a i * M i z) - ∑ j, b j * M j z := by
      rw [← Finset.sum_sub_distrib]
      apply Finset.sum_congr rfl
      intro j _
      ring
    have step2 : (∑ i, a i * M i z) = ∑ i, ∑ j, G i j * M i z := by
      apply Finset.sum_congr rfl
      intro i _
      rw [← hGrow i, Finset.sum_mul]
    have step3 : (∑ j, b j * M j z) = ∑ i, ∑ j, G i j * M j z := by
      rw [Finset.sum_comm]
      apply Finset.sum_congr rfl
      intro j _
      rw [← hGcol j, Finset.sum_mul]
    have step4 : (∑ j, (a j - b j) * M j z) = ∑ i, ∑ j, G i j * (M i z - M j z) := by
      rw [step1, step2, step3, ← Finset.sum_sub_distrib]
      apply Finset.sum_congr rfl
      intro i _
      rw [← Finset.sum_sub_distrib]
      apply Finset.sum_congr rfl
      intro j _
      ring
    rw [step4]
    exact Finset.sum_le_sum fun i _ => Finset.sum_le_sum fun j _ => key i j
  have hmem : (∑ j, (a j - b j) * M j z) ∈ {c : ℝ | ∃ F, IsTransportPlan a b F ∧
      c = ∑ i, ∑ j, F i j * M i j} := ⟨F, hFplan, hFcost.symm⟩
  unfold emdCost
  exact le_antisymm (csInf_le ⟨_, hlb⟩ hmem) (le_csInf ⟨_, hmem⟩ hlb)

/-- Helper: summing a function of list entries over all positions equals the
mapped list sum. -/
theorem sum_fin_getD {α : Type} (g : α → ℝ) (dflt : α) :
    ∀ l : List α, (∑ i : Fin l.length, g (l.getD i.val dflt)) = (l.map g).sum := by
  intro l
  induction l with
  | nil => simp
  | cons x xs ih =>
    rw [List.map_cons, List.sum_cons]
    show (∑ i : Fin (xs.length + 1), g ((x :: xs).getD i.val dflt)) = g x + (List.map g xs).sum
    rw [Fin.sum_univ_succ]
    simp only [Fin.val_zero, List.getD_cons_zero, Fin.val_succ, List.getD_cons_succ]
    rw [ih]

/-- Helper: `getD` through `map` at an in-range position. -/
theorem list_getD_map {α : Type} (g : α → ℝ) (dflt : α) :
    ∀ (l : List α) (i : ℕ), i < l.length → (l.map g).getD i 0 = g (l.getD i dflt) := by
  intro l
  induction l with
  | nil =>
    intro i h
    exact absurd h (Nat.not_lt_zero i)
  | cons x xs ih =>
    intro i h
    cases i with
    | zero => rfl
    | succ m =>
      simp only [List.map_cons, List.getD_cons_succ]
      exact ih m (by simpa using h)

/-- Helper: `getD` at the position just set. -/
theorem list_getD_set_self (v : ℝ) :
    ∀ (l : List ℝ) (m : ℕ), m < l.length → (l.set m v).getD m 0 = v := by
  intro l
  induction l with
  | nil =>
    intro m h
    exact absurd h (Nat.not_lt_zero m)
  | cons x xs ih =>
    intro m h
    cases m with
    | zero => rfl
    | succ mm =>
      show (x :: xs.set mm v).getD (mm + 1) 0 = v
      rw [List.getD_cons_succ]
      exact ih mm (by simpa using h)

/-- Helper: `getD` away from the position just set. -/
theorem list_getD_set_ne (v : ℝ) :
    ∀ (l : List ℝ) (m i : ℕ), i ≠ m → (l.set m v).getD i 0 = l.getD i 0 := by
  intro l
  induction l with
  | nil =>
    intro m i _
    rfl
  | cons x xs ih =>
    intro m i hne
    cases m with
    | zero =>
      cases i with
      | zero => exact absurd rfl hne
      | succ ii => rfl
    | succ mm =>
      cases i with
      | zero => rfl
      | succ ii =>
        show (x :: xs.set mm v).getD (ii + 1) 0 = (x :: xs).getD (ii + 1) 0
        rw [List.getD_cons_succ, List.getD_cons_succ]
        exact ih mm ii fun hh => hne (by rw [hh])

/-- Helper: setting a position to its current value is the identity. -/
theorem list_set_getD_self :
    ∀ (l : List ℝ) (m : ℕ), l.set m (l.getD m 0) = l := by
  intro l
  induction l with
  | nil => intro m; rfl
  | cons x xs ih =>
    intro m
    cases m with
    | zero => rfl
    | succ mm =>
      show x :: xs.set mm ((x :: xs).getD (mm + 1) 0) = x :: xs
      rw [List.getD_cons_succ, ih mm]

/-- Claim C7: when `C2` is (as a set of concepts) contained in `C1`, the simple
fast-path formula of `_constellation_distance_simple` and the general
EMD-over-concept-space formula of `_constellation_distance_emd` agree exactly
(hence within ε), for any concept distance that is symmetric, vanishes on the
diagonal and satisfies the triangle inequality — the properties of the sum of
two Hamming EMDs used by `concept_distance` — and any non-negative concept φ
values. -/
theorem constellation_distance_fast_path_equivalence {α : Type} [DecidableEq α]
    (phi : α → ℝ) (conceptDist : α → α → ℝ) (nullConcept : α) (C1 C2 : List α)
    (hsub : ∀ c ∈ C2, c ∈ C1)
    (hnodup : C2.Nodup)
    (hnull : nullConcept ∉ C1)
    (hphi : ∀ c ∈ C1, 0 ≤ phi c)
    (hdiag : ∀ c, conceptDist c c = 0)
    (hsym : ∀ c d, conceptDist c d = conceptDist d c)
    (htri : ∀ c d e, conceptDist c e ≤ conceptDist c d + conceptDist d e) :
    constellation_distance_emd_value phi conceptDist nullConcept C1 C2 =
      constellation_distance_simple phi conceptDist nullConcept C1 C2 := by
  have hnull2 : nullConcept ∉ C2 := fun h => hnull (hsub _ h)
  set S := C1.filter (fun c => decide (c ∈ C2)) with hSdef
  set D := C1.filter (fun c => decide (c ∉ C2)) with hDdef
  set f1 : α → ℝ := fun c => if c ∈ C1 then phi c else 0 with hf1def
  set f2 : α → ℝ := fun c => if c ∈ C2 then phi c else 0 with hf2def
  have hU2 : C2.filter (fun c => decide (c ∉ C1)) = [] := by
    rw [List.filter_eq_nil_iff]
    intro c hc
    simp [hsub c hc]
  have hallc : cd_all_concepts C1 C2 nullConcept = (S ++ D) ++ [nullConcept] := by
    unfold cd_all_concepts
    rw [← hSdef, ← hDdef, hU2]
    simp [List.append_assoc]
  have hSmem : ∀ c ∈ S, c ∈ C1 ∧ c ∈ C2 := by
    intro c hc
    rw [hSdef] at hc
    have h := List.mem_filter.mp hc
    exact ⟨h.1, of_decide_eq_true h.2⟩
  have hDmem : ∀ c ∈ D, c ∈ C1 ∧ c ∉ C2 := by
    intro c hc
    rw [hDdef] at hc
    have h := List.mem_filter.mp hc
    exact ⟨h.1, of_decide_eq_true h.2⟩
  have hLmem : ∀ c ∈ S ++ D, c ∈ C1 := by
    intro c hc
    rcases List.mem_append.mp hc with h | h
    · exact (hSmem c h).1
    · exact (hDmem c h).1
  have hf1null : f1 nullConcept = 0 := if_neg hnull
  have hf2null : f2 nullConcept = 0 := if_neg hnull2
  have hSf1 : S.map f1 = S.map phi := List.map_congr_left fun c hc => if_pos (hSmem c hc).1
  have hDf1 : D.map f1 = D.map phi := List.map_congr_left fun c hc => if_pos (hDmem c hc).1
  have hSf2 : S.map f2 = S.map phi := List.map_congr_left fun c hc => if_pos (hSmem c hc).2
  have hDf2sum : (D.map f2).sum = 0 := by
    apply List.sum_eq_zero
    intro x hx
    rcases List.mem_map.mp hx with ⟨c, hc, rfl⟩
    exact if_neg (hDmem c hc).2
  have hDphinn : (0:ℝ) ≤ (D.map phi).sum := by
    apply List.sum_nonneg
    intro x hx
    rcases List.mem_map.mp hx with ⟨c, hc, rfl⟩
    exact hphi c (hDmem c hc).1
  have hlen : (cd_all_concepts C1 C2 nullConcept).length = (S ++ D).length + 1 := by
    rw [hallc, List.length_append, List.length_singleton]
  have hlenm1 : (cd_all_concepts C1 C2 nullConcept).length - 1 = (S ++ D).length := by
    rw [hlen]
    omega
  have hres : ((cd_all_concepts C1 C2 nullConcept).map f1).sum -
      ((cd_all_concepts C1 C2 nullConcept).map f2).sum = (D.map phi).sum := by
    rw [hallc]
    simp only [List.map_append, List.sum_append, List.map_cons, List.map_nil,
      List.sum_cons, List.sum_nil]
    rw [hSf1, hDf1, hSf2, hf1null, hf2null]
    have h0 : (D.map f2).sum = 0 := hDf2sum
    rw [h0]
    ring
  have hgetz : (cd_all_concepts C1 C2 nullConcept).getD (S ++ D).length nullConcept =
      nullConcept := by
    rw [hallc, List.getD_append_right _ _ _ _ (le_refl _)]
    simp
  have hgetlt : ∀ i : ℕ, i < (S ++ D).length →
      (cd_all_concepts C1 C2 nullConcept).getD i nullConcept ∈ S ++ D := by
    intro i hi
    rw [hallc, List.getD_append _ _ _ _ hi, List.getD_eq_getElem _ _ hi]
    exact List.getElem_mem hi
  have hhist1 : (cd_histograms phi C1 C2 nullConcept).1 =
      (cd_all_concepts C1 C2 nullConcept).map f1 := by
    simp only [cd_histograms]
    rw [← hf1def, ← hf2def]
    rw [if_neg (not_lt.mpr (by rw [hres]; exact hDphinn))]
  have hhist2 : (cd_histograms phi C1 C2 nullConcept).2 =
      ((cd_all_concepts C1 C2 nullConcept).map f2).set
        ((cd_all_concepts C1 C2 nullConcept).length - 1) ((D.map phi).sum) := by
    simp only [cd_histograms]
    rw [← hf1def, ← hf2def]
    rw [List.length_map, hres]
    by_cases hpos : (0:ℝ) < (D.map phi).sum
    · rw [if_pos hpos]
    · rw [if_neg hpos]
      have h0 : (D.map phi).sum = 0 := le_antisymm (not_lt.mp hpos) hDphinn
      rw [h0]
      have hlast : ((cd_all_concepts C1 C2 nullConcept).map f2).getD
          ((cd_all_concepts C1 C2 nullConcept).length - 1) 0 = 0 := by
        rw [hlenm1, list_getD_map f2 nullConcept _ _ (by rw [hlen]; omega), hgetz, hf2null]
      conv_rhs => rw [← hlast]
      rw [list_set_getD_self]
  -- the null index in the combined concept list
  have hzlt : (S ++ D).length < (cd_all_concepts C1 C2 nullConcept).length := by
    rw [hlen]
    omega
  have hemd := emdCost_to_null
    (fun r c : Fin (cd_all_concepts C1 C2 nullConcept).length =>
      conceptDist ((cd_all_concepts C1 C2 nullConcept).getD c.val nullConcept)
        ((cd_all_concepts C1 C2 nullConcept).getD r.val nullConcept))
    (fun i => ((cd_all_concepts C1 C2 nullConcept).map f1).getD i.val 0)
    (fun i => (((cd_all_concepts C1 C2 nullConcept).map f2).set
      ((cd_all_concepts C1 C2 nullConcept).length - 1) ((D.map phi).sum)).getD i.val 0)
    ⟨(S ++ D).length, hzlt⟩
  have hgz : (cd_all_concepts C1 C2 nullConcept).getD
      ((⟨(S ++ D).length, hzlt⟩ : Fin (cd_all_concepts C1 C2 nullConcept).length) : ℕ)
      nullConcept = nullConcept := hgetz
  have hjval : ∀ j : Fin (cd_all_concepts C1 C2 nullConcept).length,
      j ≠ ⟨(S ++ D).length, hzlt⟩ → j.val < (S ++ D).length := by
    intro j hj
    have h1 : j.val < (S ++ D).length + 1 := by
      rw [← hlen]
      exact j.isLt
    rcases Nat.lt_succ_iff_lt_or_eq.mp h1 with h | h
    · exact h
    · exact absurd (Fin.ext h) hj
  have hbget : ∀ j : Fin (cd_all_concepts C1 C2 nullConcept).length,
      j ≠ ⟨(S ++ D).length, hzlt⟩ →
      (((cd_all_concepts C1 C2 nullConcept).map f2).set
        ((cd_all_concepts C1 C2 nullConcept).length - 1) ((D.map phi).sum)).getD j.val 0 =
        f2 ((cd_all_concepts C1 C2 nullConcept).getD j.val nullConcept) := by
    intro j hj
    rw [list_getD_set_ne _ _ _ _ (by rw [hlenm1]; exact Nat.ne_of_lt (hjval j hj)),
      list_getD_map f2 nullConcept _ _ j.isLt]
  have haget : ∀ j : Fin (cd_all_concepts C1 C2 nullConcept).length,
      ((cd_all_concepts C1 C2 nullConcept).map f1).getD j.val 0 =
        f1 ((cd_all_concepts C1 C2 nullConcept).getD j.val nullConcept) := by
    intro j
    rw [list_getD_map f1 nullConcept _ _ j.isLt]
  have hbz : (((cd_all_concepts C1 C2 nullConcept).map f2).set
      ((cd_all_concepts C1 C2 nullConcept).length - 1) ((D.map phi).sum)).getD
      (S ++ D).length 0 = (D.map phi).sum := by
    rw [hlenm1]
    exact list_getD_set_self _ _ _ (by rw [List.length_map, hlen]; omega)
  -- discharge the hypotheses of the transport lemma
  simp only [constellation_distance_emd_value]
  simp only [hhist1, hhist2]
  rw [hemd (fun i => hdiag _)
    (by
      intro i j
      rw [hgz, hsym nullConcept ((cd_all_concepts C1 C2 nullConcept).getD i.val nullConcept),
        hsym nullConcept ((cd_all_concepts C1 C2 nullConcept).getD j.val nullConcept),
        hsym ((cd_all_concepts C1 C2 nullConcept).getD j.val nullConcept)
          ((cd_all_concepts C1 C2 nullConcept).getD i.val nullConcept)]
      exact htri _ _ _)
    (by rw [haget ⟨(S ++ D).length, hzlt⟩, hgz, hf1null])
    (by
      intro j hj
      rw [hbget j hj, haget j]
      have hmem := hgetlt j.val (hjval j hj)
      have hc1 : (cd_all_concepts C1 C2 nullConcept).getD j.val nullConcept ∈ C1 :=
        hLmem _ hmem
      simp only [hf1def, hf2def]
      rw [if_pos hc1]
      by_cases hc2 : (cd_all_concepts C1 C2 nullConcept).getD j.val nullConcept ∈ C2
      · rw [if_pos hc2]
      · rw [if_neg hc2]
        exact hphi _ hc1)
    (by
      intro j hj
      rw [hbget j hj]
      simp only [hf2def]
      by_cases hc2 : (cd_all_concepts C1 C2 nullConcept).getD j.val nullConcept ∈ C2
      · rw [if_pos hc2]
        exact hphi _ (hsub _ hc2)
      · rw [if_neg hc2])
    (by
      have hbv : ∀ j : Fin (cd_all_concepts C1 C2 nullConcept).length,
          (((cd_all_concepts C1 C2 nullConcept).map f2).set
            ((cd_all_concepts C1 C2 nullConcept).length - 1) ((D.map phi).sum)).getD j.val 0 =
          f2 ((cd_all_concepts C1 C2 nullConcept).getD j.val nullConcept) +
            (if j = (⟨(S ++ D).length, hzlt⟩ :
                Fin (cd_all_concepts C1 C2 nullConcept).length) then (D.map phi).sum
              else 0) := by
        intro j
        by_cases hj : j = ⟨(S ++ D).length, hzlt⟩
        · rw [if_pos hj, hj]
          show (((cd_all_concepts C1 C2 nullConcept).map f2).set
            ((cd_all_concepts C1 C2 nullConcept).length - 1) ((D.map phi).sum)).getD
            ((S ++ D).length) 0 = _
          rw [hbz, hgz, hf2null]
          ring
        · rw [if_neg hj, hbget j hj]
          ring
      rw [Finset.sum_congr rfl fun j _ => hbv j, Finset.sum_add_distrib,
        Finset.sum_ite_eq' Finset.univ (⟨(S ++ D).length, hzlt⟩ :
          Fin (cd_all_concepts C1 C2 nullConcept).length) fun _ => (D.map phi).sum,
        if_pos (Finset.mem_univ _)]
      rw [Finset.sum_congr rfl fun j _ => haget j]
      rw [show (∑ i : Fin (cd_all_concepts C1 C2 nullConcept).length,
          f2 ((cd_all_concepts C1 C2 nullConcept).getD i.val nullConcept)) =
          ((cd_all_concepts C1 C2 nullConcept).map f2).sum from
        sum_fin_getD f2 nullConcept _]
      rw [show (∑ i : Fin (cd_all_concepts C1 C2 nullConcept).length,
          f1 ((cd_all_concepts C1 C2 nullConcept).getD i.val nullConcept)) =
          ((cd_all_concepts C1 C2 nullConcept).map f1).sum from
        sum_fin_getD f1 nullConcept _]
      rw [← hres]
      ring)]
  · -- now the direct-cost sum equals the simple fast-path formula
    have hpt : ∀ j : Fin (cd_all_concepts C1 C2 nullConcept).length,
        (((cd_all_concepts C1 C2 nullConcept).map f1).getD j.val 0 -
          (((cd_all_concepts C1 C2 nullConcept).map f2).set
            ((cd_all_concepts C1 C2 nullConcept).length - 1) ((D.map phi).sum)).getD j.val 0) *
          conceptDist
            ((cd_all_concepts C1 C2 nullConcept).getD
              ((⟨(S ++ D).length, hzlt⟩ :
                Fin (cd_all_concepts C1 C2 nullConcept).length) : ℕ) nullConcept)
            ((cd_all_concepts C1 C2 nullConcept).getD j.val nullConcept) =
        (f1 ((cd_all_concepts C1 C2 nullConcept).getD j.val nullConcept) -
          f2 ((cd_all_concepts C1 C2 nullConcept).getD j.val nullConcept)) *
          conceptDist nullConcept
            ((cd_all_concepts C1 C2 nullConcept).getD j.val nullConcept) := by
      intro j
      rw [hgz]
      by_cases hj : j = ⟨(S ++ D).length, hzlt⟩
      · rw [hj]
        show (_ - _) * conceptDist nullConcept
            ((cd_all_concepts C1 C2 nullConcept).getD ((S ++ D).length) nullConcept) = _
        rw [hgetz, hdiag nullConcept, mul_zero, mul_zero]
      · rw [haget j, hbget j hj]
    rw [Finset.sum_congr rfl fun j _ => hpt j]
    rw [show (∑ j : Fin (cd_all_concepts C1 C2 nullConcept).length,
        (f1 ((cd_all_concepts C1 C2 nullConcept).getD j.val nullConcept) -
          f2 ((cd_all_concepts C1 C2 nullConcept).getD j.val nullConcept)) *
          conceptDist nullConcept
            ((cd_all_concepts C1 C2 nullConcept).getD j.val nullConcept)) =
        ((cd_all_concepts C1 C2 nullConcept).map
          fun c => (f1 c - f2 c) * conceptDist nullConcept c).sum from
      sum_fin_getD (fun c => (f1 c - f2 c) * conceptDist nullConcept c) nullConcept _]
    rw [hallc]
    simp only [List.map_append, List.sum_append, List.map_cons, List.map_nil,
      List.sum_cons, List.sum_nil]
    have hSzero : ((S.map fun c => (f1 c - f2 c) * conceptDist nullConcept c)).sum = 0 := by
      apply List.sum_eq_zero
      intro x hx
      rcases List.mem_map.mp hx with ⟨c, hc, rfl⟩
      simp only [hf1def, hf2def]
      rw [if_pos (hSmem c hc).1, if_pos (hSmem c hc).2]
      ring
    have hnzero : (f1 nullConcept - f2 nullConcept) * conceptDist nullConcept nullConcept =
        0 := by
      rw [hf1null, hf2null]
      ring
    have hDpart : (D.map fun c => (f1 c - f2 c) * conceptDist nullConcept c) =
        D.map fun c => phi c * conceptDist c nullConcept := by
      apply List.map_congr_left
      intro c hc
      simp only [hf1def, hf2def]
      rw [if_pos (hDmem c hc).1, if_neg (hDmem c hc).2, hsym nullConcept c]
      ring
    rw [hSzero, hnzero, hDpart]
    have hlenle : C2.length ≤ C1.length := by
      have h1 : C2.toFinset.card = C2.length := List.toFinset_card_of_nodup hnodup
      have h2 : C2.toFinset ⊆ C1.toFinset := fun x hx =>
        List.mem_toFinset.mpr (hsub x (List.mem_toFinset.mp hx))
      calc C2.length = C2.toFinset.card := h1.symm
        _ ≤ C1.toFinset.card := Finset.card_le_card h2
        _ ≤ C1.length := List.toFinset_card_le C1
    simp only [constellation_distance_simple]
    rw [if_neg (by
      intro hgt
      exact absurd hlenle (not_le.mpr hgt))]
    rw [← hDdef]
    ring

/-- Claim C7, witness: a concrete instance with one destroyed concept (concept 0
with φ = 1), the empty smaller constellation, null concept 9 and the discrete
metric as concept distance. -/
theorem constellation_distance_fast_path_equivalence_witness :
    (∀ c ∈ ([] : List ℕ), c ∈ [0]) ∧ ([] : List ℕ).Nodup ∧ (9 : ℕ) ∉ [0] ∧
    constellation_distance_emd_value (fun _ => (1 : ℝ))
      (fun a b => if a = b then (0 : ℝ) else 1) 9 [0] [] =
      constellation_distance_simple (fun _ => (1 : ℝ))
        (fun a b => if a = b then (0 : ℝ) else 1) 9 [0] [] :=
  ⟨fun c hc => absurd hc (List.not_mem_nil c), List.nodup_nil, by decide,
   constellation_distance_fast_path_equivalence (fun _ => (1 : ℝ))
     (fun a b => if a = b then (0 : ℝ) else 1) 9 [0] []
     (fun c hc => absurd hc (List.not_mem_nil c)) List.nodup_nil (by decide)
     (fun c _ => by norm_num) (fun c => if_pos rfl)
     (by
       intro c d
       show (if c = d then (0 : ℝ) else 1) = if d = c then (0 : ℝ) else 1
       by_cases h : c = d
       · rw [if_pos h, if_pos h.symm]
       · rw [if_neg h, if_neg fun hh => h hh.symm])
     (by
       intro c d e
       show (if c = e then (0 : ℝ) else 1) ≤
         (if c = d then (0 : ℝ) else 1) + if d = e then (0 : ℝ) else 1
       by_cases h1 : c = d <;> by_cases h2 : d = e <;> by_cases h3 : c = e <;>
         simp_all)⟩

/-! ## Claim C1: reachability saturation -/

/-- One unfolding step of the bounded reachability predicate. -/
theorem reachN_succ_iff {n : ℕ} (adj : Fin n → Fin n → Bool) (k : ℕ) (i j : Fin n) :
    reachN adj (k + 1) i j = true ↔
      (i = j ∨ ∃ m, adj i m = true ∧ reachN adj k m j = true) := by
  simp [reachN]

/-- Every vertex reaches itself within any bound. -/
theorem reachN_self {n : ℕ} (adj : Fin n → Fin n → Bool) (k : ℕ) (j : Fin n) :
    reachN adj k j j = true := by
  cases k <;> simp [reachN]

/-- Raising the bound preserves reachability. -/
theorem reachN_mono {n : ℕ} (adj : Fin n → Fin n → Bool) :
    ∀ (k : ℕ) (i j : Fin n), reachN adj k i j = true → reachN adj (k + 1) i j = true := by
  intro k
  induction k with
  | zero =>
    intro i j h
    simp only [reachN, decide_eq_true_eq] at h
    rw [reachN_succ_iff]
    exact Or.inl h
  | succ k ih =>
    intro i j h
    rw [reachN_succ_iff] at h
    rw [reachN_succ_iff]
    rcases h with h | ⟨m, h1, h2⟩
    · exact Or.inl h
    · exact Or.inr ⟨m, h1, ih m j h2⟩

/-- Membership in the bounded-reachability set. -/
theorem mem_reachSet {n : ℕ} (adj : Fin n → Fin n → Bool) (j : Fin n) (k : ℕ) (v : Fin n) :
    v ∈ reachSet adj j k ↔ reachN adj k v j = true := by
  simp [reachSet]

/-- The bounded-reachability sets grow with the bound. -/
theorem reachSet_subset_succ {n : ℕ} (adj : Fin n → Fin n → Bool) (j : Fin n) (k : ℕ) :
    reachSet adj j k ⊆ reachSet adj j (k + 1) := by
  intro v hv
  rw [mem_reachSet] at hv ⊢
  exact reachN_mono adj k v j hv

/-- A stable step stays stable: the next reachability set is determined by the
current one. -/
theorem reachSet_succ_of_eq {n : ℕ} (adj : Fin n → Fin n → Bool) (j : Fin n) (k : ℕ)
    (h : reachSet adj j k = reachSet adj j (k + 1)) :
    reachSet adj j (k + 1) = reachSet adj j (k + 2) := by
  have hmem : ∀ m : Fin n, reachN adj (k + 1) m j = true ↔ reachN adj k m j = true := by
    intro m
    have := Finset.ext_iff.mp h m
    rw [mem_reachSet, mem_reachSet] at this
    exact this.symm
  ext v
  rw [mem_reachSet, mem_reachSet, reachN_succ_iff, reachN_succ_iff]
  constructor
  · rintro (h1 | ⟨m, h1, h2⟩)
    · exact Or.inl h1
    · exact Or.inr ⟨m, h1, (hmem m).mpr h2⟩
  · rintro (h1 | ⟨m, h1, h2⟩)
    · exact Or.inl h1
    · exact Or.inr ⟨m, h1, (hmem m).mp h2⟩

/-- Once stable, the reachability sets stay equal forever. -/
theorem reachSet_stable {n : ℕ} (adj : Fin n → Fin n → Bool) (j : Fin n) (k : ℕ)
    (h : reachSet adj j k = reachSet adj j (k + 1)) :
    ∀ m, reachSet adj j (k + m) = reachSet adj j k ∧
      reachSet adj j (k + m) = reachSet adj j (k + m + 1) := by
  intro m
  induction m with
  | zero => exact ⟨rfl, h⟩
  | succ m ih =>
    obtain ⟨ih1, ih2⟩ := ih
    refine ⟨?_, reachSet_succ_of_eq adj j (k + m) ih2⟩
    exact ih2.symm.trans ih1

/-- While the sets keep growing strictly, their cardinality outruns the bound. -/
theorem reachSet_card_grow {n : ℕ} (adj : Fin n → Fin n → Bool) (j : Fin n) :
    ∀ K, (∀ k, k < K → reachSet adj j k ≠ reachSet adj j (k + 1)) →
      K + 1 ≤ (reachSet adj j K).card := by
  intro K
  induction K with
  | zero =>
    intro _
    have hj : j ∈ reachSet adj j 0 := (mem_reachSet adj j 0 j).mpr (reachN_self adj 0 j)
    have := Finset.card_pos.mpr ⟨j, hj⟩
    omega
  | succ K ih =>
    intro h
    have h1 := ih fun k hk => h k (Nat.lt_succ_of_lt hk)
    have h2 : reachSet adj j K ⊂ reachSet adj j (K + 1) :=
      ssubset_of_subset_of_ne (reachSet_subset_succ adj j K) (h K (Nat.lt_succ_self K))
    have h3 := Finset.card_lt_card h2
    omega

/-- On `n` vertices the reachability sets stabilize within `n` steps. -/
theorem reachSet_exists_stable {n : ℕ} (adj : Fin n → Fin n → Bool) (j : Fin n) :
    ∃ k ≤ n, reachSet adj j k = reachSet adj j (k + 1) := by
  by_contra hc
  push_neg at hc
  have h1 := reachSet_card_grow adj j n fun k hk => hc k (le_of_lt hk)
  have h2 : (reachSet adj j n).card ≤ n := by
    simpa using Finset.card_le_univ (reachSet adj j n)
  omega

/-- `reachB` is closed under prepending an edge: if `u → v` and `v` reaches
`j`, then `u` reaches `j` (paths of length at most `n` suffice). -/
theorem reachB_head {n : ℕ} (adj : Fin n → Fin n → Bool) (u v j : Fin n)
    (huv : adj u v = true) (hvj : reachB adj v j = true) : reachB adj u j = true := by
  obtain ⟨k, hk, hstab⟩ := reachSet_exists_stable adj j
  have hn : reachSet adj j n = reachSet adj j k := by
    have := (reachSet_stable adj j k hstab (n - k)).1
    rwa [Nat.add_sub_cancel' hk] at this
  have hn1 : reachSet adj j (n + 1) = reachSet adj j k := by
    have := (reachSet_stable adj j k hstab (n + 1 - k)).1
    rwa [Nat.add_sub_cancel' (le_trans hk (Nat.le_succ n))] at this
  have hu : reachN adj (n + 1) u j = true := by
    rw [reachN_succ_iff]
    exact Or.inr ⟨v, huv, hvj⟩
  have hmem : u ∈ reachSet adj j (n + 1) := (mem_reachSet adj j (n + 1) u).mpr hu
  rw [hn1, ← hn] at hmem
  exact (mem_reachSet adj j n u).mp hmem

/-- If some vertex fails to reach another, the vertex set splits into two
non-empty complementary parts with no edge from the first into the second:
the non-reachers of `j` and the reachers of `j`. -/
theorem exists_noop_cut {n : ℕ} (adj : Fin n → Fin n → Bool)
    (h : ∃ i j : Fin n, reachB adj i j = false) :
    ∃ F T : Finset (Fin n), F.Nonempty ∧ T.Nonempty ∧ (∀ v, v ∈ F ↔ v ∉ T) ∧
      ∀ u ∈ F, ∀ v ∈ T, adj u v = false := by
  obtain ⟨i, j, hij⟩ := h
  refine ⟨(reachSet adj j n)ᶜ, reachSet adj j n, ⟨i, ?_⟩, ⟨j, ?_⟩,
    fun v => Finset.mem_compl, ?_⟩
  · rw [Finset.mem_compl, mem_reachSet]
    intro hcon
    rw [reachB, hcon] at hij
    cases hij
  · exact (mem_reachSet adj j n j).mpr (reachN_self adj n j)
  · intro u hu v hv
    by_contra hadj
    have hadj' : adj u v = true := by
      cases hq : adj u v
      · exact absurd hq hadj
      · rfl
    have hvj : reachB adj v j = true := (mem_reachSet adj j n v).mp hv
    have huj := reachB_head adj u v j hadj' hvj
    have hmem : u ∈ reachSet adj j n := (mem_reachSet adj j n u).mpr huj
    exact (Finset.mem_compl.mp hu) hmem

/-! ## Claim C1: the bipartition enumeration -/

/-- The bit of an or-mask at `m` is set iff `m` is listed. -/
theorem testBit_list_or_mask (l : List ℕ) (m : ℕ) :
    (list_or_mask l).testBit m = decide (m ∈ l) := by
  induction l with
  | nil => simp [list_or_mask]
  | cons a L ih =>
    simp only [list_or_mask, Nat.testBit_lor, ih, Nat.testBit_two_pow, List.mem_cons]
    by_cases h1 : a = m <;> by_cases h2 : m ∈ L <;> simp [h1, h2]
    intro hcon
    exact h1 hcon.symm

/-- An or-mask over positions below `B` is below `2 ^ B`. -/
theorem list_or_mask_lt (l : List ℕ) (B : ℕ) (h : ∀ k ∈ l, k < B) :
    list_or_mask l < 2 ^ B := by
  induction l with
  | nil =>
    show 0 < 2 ^ B
    positivity
  | cons a L ih =>
    have h1 : 2 ^ a < 2 ^ B := Nat.pow_lt_pow_right (by norm_num) (h a (List.mem_cons_self a L))
    have h2 := ih fun k hk => h k (List.mem_cons_of_mem a hk)
    have hb := Nat.bitwise_lt (f := or) h1 h2
    show 2 ^ a ||| list_or_mask L < 2 ^ B
    simpa [HOr.hOr, OrOp.or, Nat.lor] using hb

/-- An or-mask over a list with a member is nonzero. -/
theorem list_or_mask_ne_zero (l : List ℕ) (k : ℕ) (hk : k ∈ l) : list_or_mask l ≠ 0 := by
  intro h0
  have h := testBit_list_or_mask l k
  rw [h0] at h
  simp [hk] at h

/-- Enumerating `finRange` pairs each element with its own value. -/
theorem enum_finRange (n : ℕ) :
    (List.finRange n).enum = (List.finRange n).map fun v => (v.val, v) := by
  apply List.ext_getElem
  · simp
  · intro i h1 h2
    have h3 : i < n := by simpa using h2
    have h4 : i < (List.finRange n).length := by simpa using h3
    simp only [List.getElem_enum, List.getElem_map]
    have h5 : (List.finRange n)[i] = (⟨i, h3⟩ : Fin n) := by
      simp [List.getElem_finRange, Fin.ext_iff]
    rw [h5]

/-- `_bitstring_index` on the full node list is a filter by bit position. -/
theorem bitstring_index_finRange (n : ℕ) (f : ℕ → Bool) :
    ((List.finRange n).enum.filter fun p => f p.1).map Prod.snd =
      (List.finRange n).filter fun v => f v.val := by
  rw [enum_finRange, List.filter_map, List.map_map]
  have h1 : (Prod.snd ∘ fun v : Fin n => (v.val, v)) = id := rfl
  have h2 : ((fun p : ℕ × Fin n => f p.1) ∘ fun v : Fin n => (v.val, v)) =
      fun v : Fin n => f v.val := rfl
  rw [h1, h2, List.map_id]

/-- Every non-trivial subset of the vertices avoiding the last vertex occurs,
with its complement, as an enumerated bipartition after the skipped first
(trivial) entry. -/
theorem cyphi_bipartition_complete {n : ℕ} (X : Finset (Fin n))
    (hne : X.Nonempty) (hlast : ∀ v ∈ X, v.val < n - 1) :
    ∃ pr ∈ (cyphi_bipartition (List.finRange n)).tail,
      (∀ v : Fin n, v ∈ pr.1 ↔ v ∈ X) ∧ (∀ v : Fin n, v ∈ pr.2 ↔ v ∉ X) := by
  set i := list_or_mask (X.toList.map Fin.val) with hidef
  have htb : ∀ v : Fin n, i.testBit v.val = decide (v ∈ X) := by
    intro v
    rw [hidef, testBit_list_or_mask]
    have : v.val ∈ X.toList.map Fin.val ↔ v ∈ X := by
      constructor
      · intro hmem
        rcases List.mem_map.mp hmem with ⟨u, hu, hval⟩
        have huv : u = v := Fin.ext hval
        rw [← huv]
        exact Finset.mem_toList.mp hu
      · intro hv
        exact List.mem_map.mpr ⟨v, Finset.mem_toList.mpr hv, rfl⟩
    exact decide_eq_decide.mpr this
  have hipos : i ≠ 0 := by
    obtain ⟨w, hw⟩ := hne
    exact list_or_mask_ne_zero _ w.val (List.mem_map.mpr ⟨w, Finset.mem_toList.mpr hw, rfl⟩)
  have hilt : i < 2 ^ (n - 1) := by
    apply list_or_mask_lt
    intro k hk
    rcases List.mem_map.mp hk with ⟨u, hu, rfl⟩
    exact hlast u (Finset.mem_toList.mp hu)
  refine ⟨(((List.finRange n).enum.filter fun p => i.testBit p.1).map Prod.snd,
           ((List.finRange n).enum.filter fun p => !(i.testBit p.1)).map Prod.snd),
          ?_, ?_, ?_⟩
  · have htm : ∀ (L : List ℕ) (g : ℕ → List (Fin n) × List (Fin n)),
        (L.map g).tail = L.tail.map g := by
      intro L g
      cases L <;> simp
    simp only [cyphi_bipartition, htm]
    apply List.mem_map.mpr
    refine ⟨i, ?_, rfl⟩
    have hlen : (List.finRange n).length = n := List.length_finRange n
    rw [hlen]
    have hM : 2 ^ (n - 1) = (2 ^ (n - 1) - 1) + 1 := by
      have : 0 < 2 ^ (n - 1) := by positivity
      omega
    rw [hM, List.range_succ_eq_map]
    simp only [List.tail_cons, List.mem_map, List.mem_range]
    have h1 : (1 : ℕ) ≤ i := Nat.one_le_iff_ne_zero.mpr hipos
    exact ⟨i - 1, by omega, by omega⟩
  · intro v
    show v ∈ ((List.finRange n).enum.filter fun p => i.testBit p.1).map Prod.snd ↔ v ∈ X
    rw [bitstring_index_finRange]
    simp only [List.mem_filter, List.mem_finRange, true_and]
    rw [htb v]
    simp
  · intro v
    show v ∈ ((List.finRange n).enum.filter fun p => !(i.testBit p.1)).map Prod.snd ↔ v ∉ X
    rw [bitstring_index_finRange n fun b => !(i.testBit b)]
    simp only [List.mem_filter, List.mem_finRange, true_and]
    rw [htb v]
    simp

/-! ## Claim C1: the cut evaluation and the minimum over candidates -/

/-- A cut that severs no edge leaves the connectivity matrix unchanged. -/
theorem apply_cut_noop {n : ℕ} (cm : Fin n → Fin n → Bool) (F T : List (Fin n))
    (h : ∀ u ∈ F, ∀ v ∈ T, cm u v = false) : apply_cut F T cm = cm := by
  funext u v
  simp only [apply_cut]
  by_cases hc : u ∈ F ∧ v ∈ T
  · rw [if_pos hc]
    exact (h u hc.1 v hc.2).symm
  · rw [if_neg hc]

/-- The distance from a constellation to itself is 0: no unique concepts, so
the simple path fires on an empty destroyed-concept list. -/
theorem constellation_distance_self {γ : Type} [DecidableEq γ] (phi : γ → ℚ)
    (conceptDist : γ → γ → ℚ) (nullConcept : γ) (cdEmd : List γ → List γ → ℚ)
    (C : List γ) :
    constellation_distance phi conceptDist nullConcept cdEmd C C = 0 := by
  have hfilter : (C.filter fun c => decide (c ∉ C)) = [] := by
    apply List.filter_eq_nil_iff.mpr
    intro c hc
    simp [hc]
  have hdisp : uses_simple_path C C = true := by
    simp [uses_simple_path, hfilter]
  rw [constellation_distance, if_pos hdisp]
  show (((if C.length > C.length then (C, C) else (C, C)).1.filter fun c =>
      decide (c ∉ (if C.length > C.length then (C, C) else (C, C)).2)).map
      fun c => phi c * conceptDist c nullConcept).sum = 0
  simp only [ite_self]
  rw [hfilter]
  simp

/-- `_evaluate_cut` returns either the null BigMip or a value with φ above
`EPSILON` (compute.py:283). -/
theorem evaluate_cut_cases {n : ℕ} {γ : Type} [DecidableEq γ] (phi : γ → ℚ)
    (conceptDist : γ → γ → ℚ) (nullConcept : γ) (cdEmd : List γ → List γ → ℚ)
    (ces : (Fin n → Fin n → Bool) → List γ) (cm : Fin n → Fin n → Bool)
    (unpartitioned : List γ) (pr : List (Fin n) × List (Fin n)) :
    evaluate_cut phi conceptDist nullConcept cdEmd ces cm unpartitioned pr = null_mip γ ∨
      EPSILON <
        (evaluate_cut phi conceptDist nullConcept cdEmd ces cm unpartitioned pr).phi := by
  simp only [evaluate_cut]
  by_cases h : EPSILON <
      (if (constellation_distance phi conceptDist nullConcept cdEmd unpartitioned
            (ces (apply_cut pr.2 pr.1 cm))) <
          (constellation_distance phi conceptDist nullConcept cdEmd unpartitioned
            (ces (apply_cut pr.1 pr.2 cm))) then
        ({ phi := constellation_distance phi conceptDist nullConcept cdEmd unpartitioned
              (ces (apply_cut pr.2 pr.1 cm))
           unpartitioned_constellation := unpartitioned
           partitioned_constellation := ces (apply_cut pr.2 pr.1 cm) } : BigMip γ)
      else
        { phi := constellation_distance phi conceptDist nullConcept cdEmd unpartitioned
            (ces (apply_cut pr.1 pr.2 cm))
          unpartitioned_constellation := unpartitioned
          partitioned_constellation := ces (apply_cut pr.1 pr.2 cm) }).phi
  · right
    rw [if_pos h]
    exact h
  · left
    rw [if_neg h]

/-- The final filter of `_evaluate_cut`: if one of the two directional
distances is 0, the returned BigMip is the null BigMip (the φ-minimum of the
two is at most 0 and `EPSILON` is positive). -/
theorem evaluate_cut_null_aux {γ : Type} (b f : ℚ) (u X Y : List γ)
    (hf : f = 0 ∨ b = 0) :
    (if EPSILON <
        (if b < f then
          ({ phi := b, unpartitioned_constellation := u,
             partitioned_constellation := X } : BigMip γ)
         else
          { phi := f, unpartitioned_constellation := u,
            partitioned_constellation := Y }).phi then
      (if b < f then
        ({ phi := b, unpartitioned_constellation := u,
           partitioned_constellation := X } : BigMip γ)
       else
        { phi := f, unpartitioned_constellation := u,
          partitioned_constellation := Y })
     else null_mip γ) = null_mip γ := by
  have hE : (0 : ℚ) < EPSILON := by norm_num [EPSILON]
  by_cases hb : b < f
  · rw [if_pos hb]
    have hno : ¬ EPSILON < b := by
      rcases hf with h | h
      · rw [h] at hb
        intro hcon
        linarith
      · rw [h]
        linarith
    exact if_neg hno
  · rw [if_neg hb]
    have hno : ¬ EPSILON < f := by
      rcases hf with h | h
      · rw [h]
        linarith
      · rw [h] at hb
        intro hcon
        exact hb (lt_trans hE hcon)
    exact if_neg hno

/-- If one direction of an enumerated bipartition severs no edge, its cut
subsystem's constellation is the unpartitioned one, that direction's distance
is 0 by the simple path, and `_evaluate_cut` returns the null BigMip. -/
theorem evaluate_cut_null_of_noop {n : ℕ} {γ : Type} [DecidableEq γ] (phi : γ → ℚ)
    (conceptDist : γ → γ → ℚ) (nullConcept : γ) (cdEmd : List γ → List γ → ℚ)
    (ces : (Fin n → Fin n → Bool) → List γ) (cm : Fin n → Fin n → Bool)
    (pr : List (Fin n) × List (Fin n))
    (h : apply_cut pr.1 pr.2 cm = cm ∨ apply_cut pr.2 pr.1 cm = cm) :
    evaluate_cut phi conceptDist nullConcept cdEmd ces cm (ces cm) pr = null_mip γ := by
  rcases h with h | h
  · simp only [evaluate_cut, h]
    rw [constellation_distance_self phi conceptDist nullConcept cdEmd (ces cm)]
    exact evaluate_cut_null_aux _ _ _ _ _ (Or.inl rfl)
  · simp only [evaluate_cut, h]
    rw [constellation_distance_self phi conceptDist nullConcept cdEmd (ces cm)]
    exact evaluate_cut_null_aux _ _ _ _ _ (Or.inr rfl)

/-- The running minimum of the BigMip fold never exceeds its accumulator. -/
theorem min_mips_foldl_le_init {γ : Type} :
    ∀ (xs : List (BigMip γ)) (acc : BigMip γ),
      (xs.foldl (fun a y => if y.phi < a.phi then y else a) acc).phi ≤ acc.phi := by
  intro xs
  induction xs with
  | nil =>
    intro acc
    exact le_refl _
  | cons x xs ih =>
    intro acc
    simp only [List.foldl_cons]
    by_cases h : x.phi < acc.phi
    · rw [if_pos h]
      exact le_trans (ih x) (le_of_lt h)
    · rw [if_neg h]
      exact ih acc

/-- The BigMip fold returns its accumulator or a list element. -/
theorem min_mips_foldl_mem {γ : Type} :
    ∀ (xs : List (BigMip γ)) (acc : BigMip γ),
      xs.foldl (fun a y => if y.phi < a.phi then y else a) acc = acc ∨
        xs.foldl (fun a y => if y.phi < a.phi then y else a) acc ∈ xs := by
  intro xs
  induction xs with
  | nil =>
    intro acc
    exact Or.inl rfl
  | cons x xs ih =>
    intro acc
    simp only [List.foldl_cons]
    by_cases h : x.phi < acc.phi
    · rw [if_pos h]
      rcases ih x with h1 | h1
      · refine Or.inr ?_
        rw [h1]
        exact List.mem_cons_self x xs
      · exact Or.inr (List.mem_cons_of_mem x h1)
    · rw [if_neg h]
      rcases ih acc with h1 | h1
      · exact Or.inl h1
      · exact Or.inr (List.mem_cons_of_mem x h1)

/-- The running minimum of the BigMip fold is below every list element. -/
theorem min_mips_foldl_le_mem {γ : Type} :
    ∀ (xs : List (BigMip γ)) (acc y : BigMip γ), y ∈ xs →
      (xs.foldl (fun a y => if y.phi < a.phi then y else a) acc).phi ≤ y.phi := by
  intro xs
  induction xs with
  | nil =>
    intro acc y hy
    simp at hy
  | cons x xs ih =>
    intro acc y hy
    simp only [List.foldl_cons]
    rcases List.mem_cons.mp hy with rfl | hy'
    · by_cases h : y.phi < acc.phi
      · rw [if_pos h]
        exact min_mips_foldl_le_init xs y
      · rw [if_neg h]
        exact le_trans (min_mips_foldl_le_init xs acc) (le_of_not_lt h)
    · by_cases h : x.phi < acc.phi
      · rw [if_pos h]
        exact ih x y hy'
      · rw [if_neg h]
        exact ih acc y hy'

/-- Python's `min` over a non-empty BigMip list returns a member that is
φ-minimal. -/
theorem min_mips_spec {γ : Type} (l : List (BigMip γ)) (h : l ≠ []) :
    min_mips l ∈ l ∧ ∀ y ∈ l, (min_mips l).phi ≤ y.phi := by
  cases l with
  | nil => exact absurd rfl h
  | cons x xs =>
    constructor
    · simp only [min_mips]
      rcases min_mips_foldl_mem xs x with h1 | h1
      · rw [h1]
        exact List.mem_cons_self x xs
      · exact List.mem_cons_of_mem x h1
    · intro y hy
      simp only [min_mips]
      rcases List.mem_cons.mp hy with rfl | hy'
      · exact min_mips_foldl_le_init xs y
      · exact min_mips_foldl_le_mem xs x y hy'

/-- Claim C1: for every subsystem with at least 2 nodes whose induced
connectivity matrix is not strongly connected, `_big_mip` returns the null
BigMip — Φ = 0 and an empty partitioned constellation.  Either the
connected-components guard fires, or there is a vertex `i` that cannot reach a
vertex `j`: then the non-reachers/reachers of `j` form a non-trivial
bipartition that `utils.bipartition` enumerates, one of whose directions
severs no edge, so that direction's constellation equals the unpartitioned
one, its distance is 0 via the simple path, `_evaluate_cut` returns
`_null_mip` for it, and the minimum over the candidates — each of which is
either the null BigMip or has φ > EPSILON — is the null BigMip. -/
theorem big_mip_not_strongly_connected_null {n : ℕ} {γ : Type} [DecidableEq γ]
    (phi : γ → ℚ) (conceptDist : γ → γ → ℚ) (nullConcept : γ)
    (cdEmd : List γ → List γ → ℚ) (ces : (Fin n → Fin n → Bool) → List γ)
    (singleNodeMip : BigMip γ) (cm : Fin n → Fin n → Bool)
    (hn : 2 ≤ n) (hns : strongly_connected_check cm = false) :
    big_mip phi conceptDist nullConcept cdEmd ces singleNodeMip cm = null_mip γ := by
  have hn1 : ¬ n = 1 := by omega
  have hn0 : ¬ n = 0 := by omega
  simp only [big_mip]
  rw [if_neg hn1, if_neg hn0]
  by_cases hguard : big_mip_connectivity_null_guard cm = true
  · rw [if_pos hguard]
  · rw [if_neg hguard]
    have hex : ∃ i j : Fin n, reachB cm i j = false := by
      by_contra hc
      push_neg at hc
      have hall : ∀ i j : Fin n, reachB cm i j = true := by
        intro i j
        have h1 := hc i j
        cases h2 : reachB cm i j
        · exact absurd h2 h1
        · rfl
      have htrue : strongly_connected_check cm = true := by
        simp only [strongly_connected_check, decide_eq_true_eq]
        exact hall
      rw [htrue] at hns
      exact Bool.noConfusion hns
    obtain ⟨F, T, hFne, hTne, hcompl, hnoedge⟩ := exists_noop_cut cm hex
    have hnlt : n - 1 < n := by omega
    have hlastmem : (⟨n - 1, hnlt⟩ : Fin n) ∈ F ∨ (⟨n - 1, hnlt⟩ : Fin n) ∈ T := by
      by_cases h : (⟨n - 1, hnlt⟩ : Fin n) ∈ T
      · exact Or.inr h
      · exact Or.inl ((hcompl _).mpr h)
    have key : ∃ pr ∈ (cyphi_bipartition (List.finRange n)).tail,
        evaluate_cut phi conceptDist nullConcept cdEmd ces cm (ces cm) pr = null_mip γ := by
      rcases hlastmem with hlF | hlT
      · -- the last vertex lies in F: enumerate the pair as (T, F); the
        -- backward direction is the edge-free cut F → T
        have hX : ∀ v ∈ T, v.val < n - 1 := by
          intro v hv
          have hvnF : v ∉ F := fun hvF => (hcompl v).mp hvF hv
          have hne' : v ≠ ⟨n - 1, hnlt⟩ := by
            intro he
            rw [he] at hvnF
            exact hvnF hlF
          have h2 : v.val ≠ n - 1 := fun hc => hne' (Fin.ext hc)
          have h3 := v.isLt
          omega
        obtain ⟨pr, hprmem, hpr1, hpr2⟩ := cyphi_bipartition_complete T hTne hX
        have hnoop : apply_cut pr.2 pr.1 cm = cm := by
          apply apply_cut_noop
          intro u hu v hv
          have hunT : u ∉ T := (hpr2 u).mp hu
          have huF : u ∈ F := (hcompl u).mpr hunT
          have hvT : v ∈ T := (hpr1 v).mp hv
          exact hnoedge u huF v hvT
        exact ⟨pr, hprmem,
          evaluate_cut_null_of_noop phi conceptDist nullConcept cdEmd ces cm pr (Or.inr hnoop)⟩
      · -- the last vertex lies in T: enumerate the pair as (F, T); the
        -- forward direction is the edge-free cut F → T
        have hX : ∀ v ∈ F, v.val < n - 1 := by
          intro v hv
          have hvnT : v ∉ T := (hcompl v).mp hv
          have hne' : v ≠ ⟨n - 1, hnlt⟩ := by
            intro he
            rw [he] at hvnT
            exact hvnT hlT
          have h2 : v.val ≠ n - 1 := fun hc => hne' (Fin.ext hc)
          have h3 := v.isLt
          omega
        obtain ⟨pr, hprmem, hpr1, hpr2⟩ := cyphi_bipartition_complete F hFne hX
        have hnoop : apply_cut pr.1 pr.2 cm = cm := by
          apply apply_cut_noop
          intro u hu v hv
          have huF : u ∈ F := (hpr1 u).mp hu
          have hvnF : v ∉ F := (hpr2 v).mp hv
          have hvT : v ∈ T := by
            by_contra hvnT
            exact hvnF ((hcompl v).mpr hvnT)
          exact hnoedge u huF v hvT
        exact ⟨pr, hprmem,
          evaluate_cut_null_of_noop phi conceptDist nullConcept cdEmd ces cm pr (Or.inl hnoop)⟩
    obtain ⟨pr, hprmem, hnull⟩ := key
    set candidates := ((cyphi_bipartition (List.finRange n)).tail).map
      (evaluate_cut phi conceptDist nullConcept cdEmd ces cm (ces cm)) with hcand
    have hmemnull : null_mip γ ∈ candidates := by
      rw [hcand, ← hnull]
      exact List.mem_map_of_mem _ hprmem
    have hnonnil : candidates ≠ [] := List.ne_nil_of_mem hmemnull
    obtain ⟨hmin_mem, hmin_le⟩ := min_mips_spec candidates hnonnil
    have hle0 : (min_mips candidates).phi ≤ 0 := by
      have hh := hmin_le _ hmemnull
      simpa [null_mip] using hh
    have hcases : min_mips candidates = null_mip γ ∨
        EPSILON < (min_mips candidates).phi := by
      rw [hcand] at hmin_mem
      rcases List.mem_map.mp hmin_mem with ⟨pr', hpr', heq⟩
      rw [hcand, ← heq]
      exact evaluate_cut_cases phi conceptDist nullConcept cdEmd ces cm (ces cm) pr'
    rcases hcases with hfin | hfin
    · exact hfin
    · have hE : (0 : ℚ) < EPSILON := by norm_num [EPSILON]
      linarith

/-- Witness for C1: the 2-node feedforward connectivity matrix (one edge 0→1,
none back) has at least 2 nodes and is not strongly connected, and `_big_mip`
on it — here with an arbitrary constellation pipeline, concept data and a
non-null single-node parameter — returns the null BigMip. -/
theorem big_mip_not_strongly_connected_null_witness :
    2 ≤ 2 ∧ strongly_connected_check cmFeedforward = false ∧
      big_mip (fun _ : ℕ => (1 : ℚ)) (fun _ _ => 0) 0 (fun _ _ => 0)
        (fun _ => ([] : List ℕ))
        { phi := 1, unpartitioned_constellation := [], partitioned_constellation := [] }
        cmFeedforward = null_mip ℕ :=
  ⟨by norm_num, by decide,
   big_mip_not_strongly_connected_null (fun _ : ℕ => (1 : ℚ)) (fun _ _ => 0) 0
     (fun _ _ => 0) (fun _ => ([] : List ℕ))
     { phi := 1, unpartitioned_constellation := [], partitioned_constellation := [] }
     cmFeedforward (by norm_num) (by decide)⟩
